import Mathlib

/-!
# Verification of the `ge` half-diff engine

Shallow embedding of the core of the `ge` repository:

* `src/git.rs`   — grep-output parsing (`GrepResult::parse_line`, `GrepResult::from_raw`)
* `src/hunks.rs` — the hit-extension algebra (`MatchExtender for GrepResult`)
* `src/patch.rs` — the half-diff writer/parser (`PatchBuilder`)

Text is modelled at line granularity (`List String` for line sequences), and
string primitives (`trim`, `starts_with`, splitting, numeral parsing and
printing) are defined here over the character list of a `String`, mirroring
the Rust `str` functions used by the source (for the ASCII data that actually
flows through the program, Rust's byte-based lengths coincide with character
counts).  Functions that can panic in Rust (`unwrap`, failed `assert!`) are
embedded in `Option`, with `none` denoting a panic; functions returning
`anyhow::Result` are embedded in `Except String`, with short tags in place of
the formatted diagnostic messages.
-/

set_option maxRecDepth 8192

namespace Ge

instance {ε α : Type} [DecidableEq ε] [DecidableEq α] : DecidableEq (Except ε α) :=
  fun a b =>
    match a, b with
    | .error e, .error f => decidable_of_iff (e = f) (by simp)
    | .ok x, .ok y => decidable_of_iff (x = y) (by simp)
    | .error _, .ok _ => isFalse (by simp)
    | .ok _, .error _ => isFalse (by simp)

/-! ## String primitives -/

/-- Whitespace recognizer used by Rust's `str::trim` / `trim_start`
(restricted to the ASCII whitespace characters that can occur here). -/
def isWs (c : Char) : Bool :=
  c == ' ' || c == '\t' || c == '\n' || c == '\r'

/-- `str::trim`: drop whitespace from both ends. -/
def trimStr (s : String) : String :=
  ⟨((s.data.dropWhile isWs).reverse.dropWhile isWs).reverse⟩

/-- `str::starts_with`. -/
def startsWithStr (p s : String) : Bool :=
  p.data.isPrefixOf s.data

/-- Length in characters (equals Rust's byte length on the ASCII data used here). -/
def strLen (s : String) : Nat := s.data.length

/-- Slicing `s[n..]`. -/
def dropStr (s : String) (n : Nat) : String := ⟨s.data.drop n⟩

/-- `split(',')` followed by taking element `[0]`: the prefix before the
first comma (the whole string when there is no comma). -/
def takeUntilComma (s : String) : String :=
  ⟨s.data.takeWhile (fun c => c != ',')⟩

/-- Numeric value of a decimal digit character. -/
def digitVal (c : Char) : Nat := c.toNat - '0'.toNat

/-- Decimal digit character for `n < 10`. -/
def digitChar (n : Nat) : Char := Char.ofNat ('0'.toNat + n)

def isDigitCh (c : Char) : Bool := '0' ≤ c && c ≤ '9'

/-- Value of a digit string, most significant first. -/
def parseDigits (ds : List Char) : Nat :=
  ds.foldl (fun a c => 10 * a + digitVal c) 0

/-- Decimal printer for `Nat`, fuel-indexed (fuel `n+1` suffices for `n`). -/
def natPrintAux : Nat → Nat → List Char
  | 0, _ => []
  | f + 1, n => if n < 10 then [digitChar n] else natPrintAux f (n / 10) ++ [digitChar (n % 10)]

/-- Decimal rendering of a `usize` (Rust `Display` for unsigned integers). -/
def natStr (n : Nat) : String := ⟨natPrintAux (n + 1) n⟩

/-- `usize::from_str`: optional leading `+`, at least one digit, all digits,
error on overflow past `usize::MAX`. -/
def parseUsize (s : String) : Option Nat :=
  let ds := if s.data.head? == some '+' then s.data.tail else s.data
  if ds ≠ [] ∧ ds.all isDigitCh ∧ parseDigits ds < 2 ^ 64 then some (parseDigits ds) else none

/-- `x as usize` on an `isize` value: two's-complement wrap into `[0, 2^64)`. -/
def intToUsize (x : Int) : Nat := (x % (2 ^ 64 : Int)).toNat

/-- `a - b` on `usize` in release mode: wrapping subtraction modulo `2^64`. -/
def wrapSub (a b : Nat) : Nat := (a + (2 ^ 64 - b % 2 ^ 64)) % 2 ^ 64

/-- Rust compares `String`s byte-lexicographically (derived `Ord`); on valid
UTF-8 the byte order coincides with the codepoint-lexicographic order,
modelled here as the list of codepoints. -/
def strOrdKey (s : String) : List Nat := s.data.map Char.toNat

theorem char_toNat_injective : Function.Injective Char.toNat := by
  intro a b h
  have := congrArg Char.ofNat h
  rwa [Char.ofNat_toNat, Char.ofNat_toNat] at this

theorem strOrdKey_injective : Function.Injective strOrdKey := by
  intro a b h
  exact String.ext (List.map_injective_iff.mpr char_toNat_injective h)

/-! ### Numeral printing and parsing round-trip -/

theorem digitChar_isDigit {n : Nat} (h : n < 10) : isDigitCh (digitChar n) = true := by
  interval_cases n <;> decide

theorem digitVal_digitChar {n : Nat} (h : n < 10) : digitVal (digitChar n) = n := by
  interval_cases n <;> decide

theorem digitChar_ne_plus {n : Nat} (h : n < 10) : digitChar n ≠ '+' := by
  interval_cases n <;> decide

theorem parseDigits_append (ds : List Char) (c : Char) :
    parseDigits (ds ++ [c]) = 10 * parseDigits ds + digitVal c := by
  simp [parseDigits, List.foldl_append]

theorem natPrintAux_spec {f n : Nat} (h : n < f) :
    (natPrintAux f n).all isDigitCh = true ∧ natPrintAux f n ≠ [] ∧
      parseDigits (natPrintAux f n) = n := by
  induction f generalizing n with
  | zero => omega
  | succ f ih =>
    by_cases hn : n < 10
    · simp [natPrintAux, hn, parseDigits, digitVal_digitChar hn, digitChar_isDigit hn]
    · have hdiv : n / 10 < f := by
        have h1 : n / 10 < n := Nat.div_lt_self (by omega) (by omega)
        omega
      obtain ⟨hall, hne, hval⟩ := ih hdiv
      have hmod : n % 10 < 10 := Nat.mod_lt _ (by omega)
      refine ⟨?_, by simp [natPrintAux, hn], ?_⟩
      · simp only [natPrintAux, if_neg hn, List.all_append, hall, Bool.true_and,
          List.all_cons, List.all_nil, Bool.and_true]
        exact digitChar_isDigit hmod
      · simp only [natPrintAux, if_neg hn, parseDigits_append, hval, digitVal_digitChar hmod]
        omega

theorem natStr_all_digits (n : Nat) : (natStr n).data.all isDigitCh = true :=
  (natPrintAux_spec (Nat.lt_succ_self n)).1

theorem natStr_ne_nil (n : Nat) : (natStr n).data ≠ [] :=
  (natPrintAux_spec (Nat.lt_succ_self n)).2.1

theorem parseDigits_natStr (n : Nat) : parseDigits (natStr n).data = n :=
  (natPrintAux_spec (Nat.lt_succ_self n)).2.2

theorem natStr_head_ne_plus (n : Nat) : (natStr n).data.head? ≠ some '+' := by
  have hall := natStr_all_digits n
  have hne := natStr_ne_nil n
  cases hd : (natStr n).data with
  | nil => exact absurd hd hne
  | cons c cs =>
    rw [hd] at hall
    simp only [List.all_cons, Bool.and_eq_true] at hall
    simp only [List.head?, ne_eq, Option.some.injEq]
    intro hc
    subst hc
    simp [isDigitCh] at hall

theorem parseUsize_natStr {n : Nat} (h : n < 2 ^ 64) : parseUsize (natStr n) = some n := by
  have hplus := natStr_head_ne_plus n
  have hall := natStr_all_digits n
  have hne := natStr_ne_nil n
  have hval := parseDigits_natStr n
  have hcond : ((natStr n).data.head? == some '+') = false := by
    simpa using hplus
  unfold parseUsize
  simp only [hcond, Bool.false_eq_true, if_false]
  rw [if_pos ⟨hne, hall, hval.symm ▸ h⟩, hval]

/-! ## Sorting helpers

Rust's `Vec::sort` on derived `Ord` types is a stable sort by the
lexicographic order on the fields.  We model it with `List.insertionSort`
(also stable) under a key function into a linearly ordered type. -/

def leByKey {α : Type} {κ : Type} [LinearOrder κ] (f : α → κ) (a b : α) : Prop :=
  f a ≤ f b

instance {α κ : Type} [LinearOrder κ] (f : α → κ) : DecidableRel (leByKey f) :=
  fun a b => inferInstanceAs (Decidable (f a ≤ f b))

instance {α κ : Type} [LinearOrder κ] (f : α → κ) : IsTotal α (leByKey f) :=
  ⟨fun a b => le_total (f a) (f b)⟩

instance {α κ : Type} [LinearOrder κ] (f : α → κ) : IsTrans α (leByKey f) :=
  ⟨fun _ _ _ hab hbc => le_trans hab hbc⟩

def sortByKey {α κ : Type} [LinearOrder κ] (f : α → κ) (l : List α) : List α :=
  List.insertionSort (leByKey f) l

theorem sortByKey_perm {α κ : Type} [LinearOrder κ] (f : α → κ) (l : List α) :
    (sortByKey f l).Perm l :=
  List.perm_insertionSort _ l

theorem sortByKey_sorted {α κ : Type} [LinearOrder κ] (f : α → κ) (l : List α) :
    (sortByKey f l).Pairwise (leByKey f) :=
  List.sorted_insertionSort _ l

/-- `Vec::dedup`: collapse runs of adjacent equal elements to one. -/
def dedupAdj {α : Type} [DecidableEq α] : List α → List α
  | [] => []
  | [a] => [a]
  | a :: b :: t => if a = b then dedupAdj (b :: t) else a :: dedupAdj (b :: t)

/-! ## `src/git.rs` — grep output parsing -/

/-- `GrepHit` (git.rs).  `from` is a Lean keyword, hence the field `from_`. -/
structure GrepHit where
  file_id : Nat
  from_ : Nat
  n_lines : Nat
  level : Nat
deriving DecidableEq, Repr

structure GrepResult where
  files : List String
  hits : List GrepHit
deriving DecidableEq, Repr

/-- The NUL delimiter used by `git grep --null`. -/
def nulChar : Char := Char.ofNat 0

/-- `GrepResult::parse_line` (git.rs): split a grep output line on its two
NULs, parse the 1-based line number, count leading whitespace of the body,
and return `(filename, line - 1, level)`.  The `at - 1` decrement is release
mode wrapping subtraction. -/
def parse_line (l : String) : Except String (String × Nat × Nat) :=
  let d := l.data
  let filename := d.takeWhile (fun c => c != nulChar)
  match d.dropWhile (fun c => c != nulChar) with
  | [] => .error "MalformedGrepLine: failed to find filename-linenumber delimiter"
  | _ :: rem1 =>
    let at_ := rem1.takeWhile (fun c => c != nulChar)
    match rem1.dropWhile (fun c => c != nulChar) with
    | [] => .error "MalformedGrepLine: failed to find linenumber-body delimiter"
    | _ :: body =>
      match parseUsize ⟨at_⟩ with
      | none => .error "MalformedGrepLine: broken grep line number"
      | some at1 =>
        let level := body.length - (body.dropWhile isWs).length
        .ok (⟨filename⟩, wrapSub at1 1, level)

/-- The `parse` closure inside `GrepResult::from_raw`: `"--"` lines are
dropped, every other line goes through `parse_line(..).unwrap()` — a parse
error is a panic (`none`), not an `Err`. -/
def collectParsed : List String → Option (List (String × Nat × Nat))
  | [] => some []
  | l :: ls =>
    if l == "--" then collectParsed ls
    else
      match parse_line l with
      | .error _ => none
      | .ok t => (collectParsed ls).map (t :: ·)

/-- Sort key for the `(filename, linenumber, level)` triples (derived `Ord`). -/
def tripLexKey (t : String × Nat × Nat) : (List ℕ) ×ₗ (ℕ ×ₗ ℕ) :=
  toLex (strOrdKey t.1, toLex (t.2.1, t.2.2))

/-- One step of the accumulation loop in `from_raw`.  The hit list is kept
reversed so that `last_mut` is the head. -/
def fromRawStep (merge : Bool) (acc : List String × List GrepHit)
    (t : String × Nat × Nat) : List String × List GrepHit :=
  let files := if acc.1.getLast? = some t.1 then acc.1 else acc.1 ++ [t.1]
  let fid := files.length - 1
  match acc.2 with
  | h :: rest =>
    if merge && h.file_id == fid && h.from_ + h.n_lines == t.2.1 then
      (files, { h with n_lines := h.n_lines + 1 } :: rest)
    else
      (files, ⟨fid, t.2.1, 1, t.2.2⟩ :: h :: rest)
  | [] => (files, [⟨fid, t.2.1, 1, t.2.2⟩])

/-- `GrepResult::from_raw` (git.rs) over the trimmed lines of the raw grep
output.  `none` models the panic of the `unwrap` inside the parse closure. -/
def from_raw (lines : List String) (merge : Bool) : Option GrepResult :=
  (collectParsed lines).map (fun ts =>
    let sorted := sortByKey tripLexKey ts
    let acc := sorted.foldl (fromRawStep merge) ([], [])
    ⟨acc.1, acc.2.reverse⟩)

/-! ## `src/hunks.rs` — the `MatchExtender` algebra on `GrepResult` -/

/-- Filename of a hit: `self.files[hit.file_id]` (indexing; claims only use
in-range ids, out-of-range indexing — a Rust panic — is defaulted). -/
def fileOf (files : List String) (h : GrepHit) : String :=
  files.getD h.file_id ""

/-- The `(files[file_id], from)` key by which hit lists are sorted. -/
def hitKey (files : List String) (h : GrepHit) : String × Nat :=
  (fileOf files h, h.from_)

/-- Lexicographic `≤` on `(filename, line)` pairs (Rust tuple `Ord`). -/
def pairLeB (a b : String × Nat) : Bool :=
  strOrdKey a.1 < strOrdKey b.1 || (a.1 == b.1 && a.2 ≤ b.2)

/-- `MatchExtender::filter_files` (hunks.rs): retain hits whose file is
(resp. is not, under `invert`) among `secondary.files`. -/
def filter_files (g : GrepResult) (secondary : GrepResult) (invert : Bool) : GrepResult :=
  { g with hits := g.hits.filter (fun x => xor invert (secondary.files.contains (fileOf g.files x))) }

/-- Sort key of `GrepHit` (derived `Ord`: lexicographic on all four fields). -/
def hitLexKey (h : GrepHit) : ℕ ×ₗ (ℕ ×ₗ (ℕ ×ₗ ℕ)) :=
  toLex (h.file_id, toLex (h.from_, toLex (h.n_lines, h.level)))

/-- `MatchExtender::collect_head` (hunks.rs): reset `from` to 0 and `n_lines`
to `n` on every hit (the `level` field is left as is), then sort and dedup. -/
def collect_head (g : GrepResult) (n : Nat) : GrepResult :=
  { g with hits := dedupAdj (sortByKey hitLexKey
      (g.hits.map (fun h => { h with from_ := 0, n_lines := n }))) }

/-- The `break` condition of the skip loop in `extend_to_another`:
`(to_files[x.file_id], x.from) >= (self_files[h.file_id], h.from)` and
`x.level == h.level`. -/
def etCond (sf tf : List String) (h x : GrepHit) : Bool :=
  pairLeB (hitKey sf h) (hitKey tf x) && x.level == h.level

/-- The `while let Some(x) = it.peek() { ... it.next() }` skip loop: drop
secondary hits until the break condition holds. -/
def etSkip (sf tf : List String) (h : GrepHit) : List GrepHit → List GrepHit
  | [] => []
  | x :: xs => if etCond sf tf h x then x :: xs else etSkip sf tf h xs

/-- The primary-hit loop of `extend_to_another`.  The secondary iterator is
threaded through: skipped and consumed hits are gone for later primaries,
and when it is exhausted the remaining primaries are returned unchanged. -/
def etGo (sf tf : List String) : List GrepHit → List GrepHit → List GrepHit
  | [], _ => []
  | h :: hs, toHits =>
    match etSkip sf tf h toHits with
    | [] => h :: hs
    | x :: xs =>
      if fileOf tf x != fileOf sf h then h :: etGo sf tf hs (x :: xs)
      else { h with n_lines := x.from_ + x.n_lines - h.from_ } :: etGo sf tf hs xs

/-- `MatchExtender::extend_to_another` (hunks.rs); `sec` is its `to` argument
(`to` is a Lean keyword). -/
def extend_to_another (g sec : GrepResult) : GrepResult :=
  { g with hits := etGo g.files sec.files g.hits sec.hits }

/-- `MatchExtender::extend_by_lines` (hunks.rs): `start = from.saturating_sub(up)`
(`Nat` subtraction), `end = from + n_lines + down`. -/
def extend_by_lines (g : GrepResult) (up down : Nat) : GrepResult :=
  { g with hits := g.hits.map (fun h =>
      let e := h.from_ + h.n_lines + down
      let s := h.from_ - up
      { h with from_ := s, n_lines := e - s }) }

/-- The merge loop of `filter_overlaps`, written as a fold on the survivor
under construction: merging sets `dst.n_lines = src.from + src.n_lines - dst.from`. -/
def foGo (cur : GrepHit) : List GrepHit → List GrepHit
  | [] => [cur]
  | x :: xs =>
    if cur.file_id == x.file_id && x.from_ ≤ cur.from_ + cur.n_lines then
      foGo { cur with n_lines := x.from_ + x.n_lines - cur.from_ } xs
    else
      cur :: foGo x xs

/-- `MatchExtender::filter_overlaps` (hunks.rs). -/
def filter_overlaps (g : GrepResult) : GrepResult :=
  { g with hits :=
      match g.hits with
      | [] => []
      | h :: t => foGo h t }

/-! ## `src/patch.rs` — the half-diff writer and parser

The two hash maps of `PatchBuilder` are modelled as association lists in
insertion order (iteration order is never observed: the writer sorts the
keys, every other access is a lookup). -/

structure PatchBuilder where
  header_marker : String
  hunk_marker : String
  header_collision_avoidance : Bool
  hunk_collision_avoidance : Bool
  files : List (String × Nat)
  raw_hunks : List ((Nat × Nat) × List String)
deriving DecidableEq, Repr

/-- `HashMap<String, usize>::get`. -/
def lookupFile (files : List (String × Nat)) (f : String) : Option Nat :=
  (files.find? (fun p => p.1 == f)).map (·.2)

/-- The reverse index built in `write_halfdiff` (`id -> filename`). -/
def revLook (files : List (String × Nat)) (id : Nat) : Option String :=
  (files.find? (fun p => p.2 == id)).map (·.1)

/-- `HashMap<(usize, usize), Vec<String>>::get`. -/
def lookupHunk (hs : List ((Nat × Nat) × List String)) (k : Nat × Nat) :
    Option (List String) :=
  (hs.find? (fun p => p.1 == k)).map (·.2)

/-- `HashMap::insert`: replace the value at `k` if present, append otherwise. -/
def insertHunk (hs : List ((Nat × Nat) × List String)) (k : Nat × Nat)
    (v : List String) : List ((Nat × Nat) × List String) :=
  if hs.any (fun p => p.1 == k) then
    hs.map (fun p => if p.1 == k then (k, v) else p)
  else hs ++ [(k, v)]

/-- `Entry::and_modify`: update the value at `k` if present, no-op otherwise. -/
def modifyHunk (hs : List ((Nat × Nat) × List String)) (k : Nat × Nat)
    (f : List String → List String) : List ((Nat × Nat) × List String) :=
  hs.map (fun p => if p.1 == k then (p.1, f p.2) else p)

/-- `l.splitn(3, &[':', '-', '='][..])` (patch.rs `parse_grep`). -/
def isDelim (c : Char) : Bool := c == ':' || c == '-' || c == '='

def splitn3 (l : String) : List String :=
  let a := l.data.takeWhile (fun c => !isDelim c)
  match l.data.dropWhile (fun c => !isDelim c) with
  | [] => [⟨a⟩]
  | _ :: r1 =>
    let b := r1.takeWhile (fun c => !isDelim c)
    match r1.dropWhile (fun c => !isDelim c) with
    | [] => [⟨a⟩, ⟨b⟩]
    | _ :: r3 => [⟨a⟩, ⟨b⟩, ⟨r3⟩]

/-- Mutable state of the loop in `PatchBuilder::parse_grep`. -/
structure PGState where
  prev_id : Nat
  prev_pos : Nat
  prev_base_pos : Nat
  files : List (String × Nat)
  raw_hunks : List ((Nat × Nat) × List String)
deriving DecidableEq, Repr

/-- One iteration of the loop in `PatchBuilder::parse_grep` (patch.rs).
The `debug_assert!`s of the source are compiled out in release mode and are
not modelled; `ln - 1` is release-mode wrapping subtraction. -/
def parse_grep_line (st : PGState) (l : String) : Except String PGState :=
  match splitn3 l with
  | [a, b, c] =>
    if a == "" then
      .ok { st with prev_id := 0, prev_pos := 0, prev_base_pos := 0 }
    else
      match parseUsize b with
      | none => .error "broken grep line number"
      | some ln =>
        let idFiles :=
          match lookupFile st.files a with
          | some i => (i, st.files)
          | none => (st.files.length + 1, st.files ++ [(a, st.files.length + 1)])
        let id := idFiles.1
        if st.prev_id == id && st.prev_pos == wrapSub ln 1 then
          .ok { st with files := idFiles.2,
                        raw_hunks := modifyHunk st.raw_hunks (id, st.prev_base_pos) (· ++ [c]),
                        prev_id := id, prev_pos := ln }
        else
          .ok { st with files := idFiles.2,
                        raw_hunks := insertHunk st.raw_hunks (id, ln) [c],
                        prev_base_pos := ln, prev_id := id, prev_pos := ln }
  | _ => .error "unexpected grep line"

/-- `PatchBuilder::parse_grep` over the trimmed lines of the raw grep text. -/
def parse_grep : PGState → List String → Except String PGState
  | st, [] => .ok st
  | st, l :: ls =>
    match parse_grep_line st l with
    | .error e => .error e
    | .ok st' => parse_grep st' ls

/-- `PatchBuilder::scan_lines` (patch.rs): does any stored body line start
with the marker? -/
def scan_lines (hs : List ((Nat × Nat) × List String)) (m : String) : Bool :=
  hs.any (fun kl => kl.2.any (fun l => startsWithStr m l))

/-- One of the two `for i in 0..17` loops of `PatchBuilder::avoid_collision`
(patch.rs), with `fuel` the number of remaining rounds (initially 17; the
round with `fuel = 1` is `i == 16`). -/
def avoidLoop (scan : String → Bool) (avoid : Bool) (c : Char) :
    Nat → String → Except String String
  | 0, m => .ok m
  | fuel + 1, m =>
    if !scan m then .ok m
    else if fuel == 0 || !avoid then .error "MarkerCollision"
    else avoidLoop scan avoid c fuel (m.push c)

/-- `PatchBuilder::avoid_collision` (patch.rs). -/
def avoid_collision (pb : PatchBuilder) : Except String PatchBuilder :=
  match avoidLoop (scan_lines pb.raw_hunks) pb.header_collision_avoidance '+' 17 pb.header_marker with
  | .error e => .error e
  | .ok hm =>
    match avoidLoop (scan_lines pb.raw_hunks) pb.hunk_collision_avoidance '@' 17 pb.hunk_marker with
    | .error e => .error e
    | .ok qm => .ok { pb with header_marker := hm, hunk_marker := qm }

/-- `PatchBuilder::from_grep` (patch.rs), over the trimmed lines of the raw
grep text and the two optional marker overrides of `HalfDiffConfig`. -/
def from_grep (header hunk : Option String) (raw : List String) :
    Except String PatchBuilder :=
  match parse_grep ⟨0, 0, 0, [], []⟩ raw with
  | .error e => .error e
  | .ok st =>
    avoid_collision
      { header_marker := header.getD "+++"
        hunk_marker := hunk.getD "@@"
        header_collision_avoidance := header.isNone
        hunk_collision_avoidance := hunk.isNone
        files := st.files
        raw_hunks := st.raw_hunks }

/-- The `"<hunk_marker> <pos>,<len>"` line emitted by `write_halfdiff`. -/
def hunkLineStr (qm : String) (pos len : Nat) : String :=
  qm ++ " " ++ natStr pos ++ "," ++ natStr len

/-- The `"<header_marker> <filename>"` line emitted by `write_halfdiff`. -/
def headerLineStr (hm : String) (f : String) : String :=
  hm ++ " " ++ f

/-- Sort key of the `(usize, usize)` hunk keys (derived `Ord`). -/
def hunkKeyLex (k : Nat × Nat) : ℕ ×ₗ ℕ := toLex k

/-- The emission loop of `write_halfdiff` over the sorted keys, threading
`prev_id`.  `none` models the panics of the two `unwrap`s (missing reverse
file index entry, missing hunk value). -/
def writeGo (pb : PatchBuilder) : Nat → List (Nat × Nat) → Option (List String)
  | _, [] => some []
  | prev_id, (id, pos) :: ks =>
    let header? : Option (List String) :=
      if prev_id != id then
        (revLook pb.files id).map (fun f => [headerLineStr pb.header_marker f])
      else some []
    match header?, lookupHunk pb.raw_hunks (id, pos) with
    | some hdr, some lines =>
      (writeGo pb id ks).map (fun rest =>
        hdr ++ hunkLineStr pb.hunk_marker pos lines.length :: (lines ++ rest))
    | _, _ => none

/-- `PatchBuilder::write_halfdiff` (patch.rs), producing the half-diff as a
list of lines. -/
def write_halfdiff (pb : PatchBuilder) : Option (List String) :=
  writeGo pb 0 (sortByKey hunkKeyLex (pb.raw_hunks.map (·.1)))

/-- `LineAccumulator` (patch.rs).  `buf` holds the pushed lines (the source
keeps them newline-joined in a `String` and recovers them with `.lines()`;
the pushed lines are lines of the edited buffer and contain no newline). -/
structure LineAcc where
  id : Nat
  hunk : String
  buf : List String
  edited_len : Nat
  pos_diff : Int
deriving DecidableEq, Repr

def LineAcc.isEmpty (a : LineAcc) : Bool := a.id == 0 || a.hunk == ""

/-- `LineAccumulator::open_new_hunk`. -/
def LineAcc.openNewHunk (a : LineAcc) (h : String) : LineAcc :=
  { a with hunk := h, buf := [], edited_len := 0 }

/-- `LineAccumulator::is_edited` (patch.rs): zip the edited lines, padded on
the right with infinitely many `""`, against the original lines — the zip
length is the number of original lines — and report any difference. -/
def is_edited : List String → List String → Bool
  | [], _ => false
  | o :: os, [] => o != "" || is_edited os []
  | o :: os, b :: bs => b != o || is_edited os bs

/-- `HunkAccumulator` (patch.rs). -/
structure HunkAcc where
  header_len : Nat
  buf : String
deriving DecidableEq, Repr

def HunkAcc.isEmpty (h : HunkAcc) : Bool := h.header_len == strLen h.buf

/-- `HunkAccumulator::open_new_patch`. -/
def HunkAcc.openNewPatch (f : String) : HunkAcc :=
  let hdr := "--- a/" ++ f ++ "\n+++ b/" ++ f ++ "\n"
  { header_len := strLen hdr, buf := hdr }

/-- `HunkAccumulator::dump_patch`: flush the buffered file patch into the
accumulated output unless only the header has been pushed. -/
def HunkAcc.dumpPatch (h : HunkAcc) (acc : String) : String × HunkAcc :=
  if h.isEmpty then (acc, h)
  else (acc ++ h.buf, { h with header_len := 0 })

/-- `LineAccumulator::dump_hunk` (patch.rs).  `none` models the panics of
`hunk[0].parse().unwrap()` and `original.get(..).unwrap()`; the emitted text
reproduces the `@@ -a,b +c,d @@` header followed by `-` and `+` lines. -/
def dump_hunk (original : List ((Nat × Nat) × List String)) (la : LineAcc)
    (ha : HunkAcc) : Option (LineAcc × HunkAcc) :=
  if la.isEmpty then some (la.openNewHunk "", ha)
  else
    match parseUsize (takeUntilComma la.hunk) with
    | none => none
    | some pos =>
      match lookupHunk original (la.id, pos) with
      | none => none
      | some olines =>
        if !is_edited olines la.buf then some (la.openNewHunk "", ha)
        else
          let header := "@@ -" ++ natStr pos ++ "," ++ natStr olines.length ++ " +"
            ++ natStr (intToUsize ((pos : Int) + la.pos_diff)) ++ ","
            ++ natStr la.edited_len ++ " @@\n"
          let minus := olines.foldl (fun acc l => acc ++ "-" ++ l ++ "\n") header
          let full := la.buf.foldl (fun acc l => acc ++ "+" ++ l ++ "\n") minus
          some ({ la.openNewHunk "" with
                    pos_diff := la.pos_diff + la.edited_len - olines.length },
                { ha with buf := ha.buf ++ full })

/-- Joint state of the parse loop in `read_halfdiff`. -/
structure RState where
  patch : String
  ha : HunkAcc
  la : LineAcc
deriving DecidableEq, Repr

/-- One iteration of the `for l in diff.lines()` loop of `read_halfdiff`
(patch.rs).  `none` models a panic (a failed `unwrap` in `dump_hunk` or the
`assert!` of `push_line`); `Except.error` models the `UnknownFile` error. -/
def stepLine (pb : PatchBuilder) (s : RState) (l : String) :
    Option (Except String RState) :=
  if startsWithStr pb.header_marker l then
    match dump_hunk pb.raw_hunks s.la s.ha with
    | none => none
    | some (la1, ha1) =>
      let pd := ha1.dumpPatch s.patch
      let fname := trimStr (dropStr l (strLen pb.header_marker))
      match lookupFile pb.files fname with
      | none => some (.error "UnknownFile")
      | some id =>
        some (.ok { patch := pd.1
                    ha := HunkAcc.openNewPatch fname
                    la := { la1 with id := id } })
  else if startsWithStr pb.hunk_marker l then
    match dump_hunk pb.raw_hunks s.la s.ha with
    | none => none
    | some (la1, ha1) =>
      some (.ok { s with
                  ha := ha1
                  la := la1.openNewHunk (trimStr (dropStr l (strLen pb.hunk_marker))) })
  else
    if s.la.isEmpty then none
    else some (.ok { s with la := { s.la with
                                    buf := s.la.buf ++ [l]
                                    edited_len := s.la.edited_len + 1 } })

def runLines (pb : PatchBuilder) : RState → List String → Option (Except String RState)
  | s, [] => some (.ok s)
  | s, l :: ls =>
    match stepLine pb s l with
    | none => none
    | some (.error e) => some (.error e)
    | some (.ok s') => runLines pb s' ls

/-- The initial `RState` of `read_halfdiff`. -/
def initRState : RState := ⟨"", ⟨0, ""⟩, ⟨0, "", [], 0, 0⟩⟩

/-- `PatchBuilder::read_halfdiff` (patch.rs) over the lines of the edited
buffer.  Returns the unified diff, an error, or `none` for a panic. -/
def read_halfdiff (pb : PatchBuilder) (input : List String) :
    Option (Except String String) :=
  match runLines pb initRState input with
  | none => none
  | some (.error e) => some (.error e)
  | some (.ok s) =>
    match dump_hunk pb.raw_hunks s.la s.ha with
    | none => none
    | some (_, ha1) => some (.ok (ha1.dumpPatch s.patch).1)

/-! ## Definitions following the specification's wording

These are the spec side of the refinement claims; each is compared against
the corresponding definition translated from the source. -/

/-- Spec wording for `extend_to_another`: "find the earliest hit in
`secondary` within the same file whose `from >= primary.from` AND whose
`level == primary.level`". -/
def specFindTarget (sf tf : List String) (toHits : List GrepHit) (h : GrepHit) :
    Option GrepHit :=
  toHits.find? (fun x =>
    fileOf tf x == fileOf sf h && h.from_ ≤ x.from_ && x.level == h.level)

/-- Spec wording: "set `primary.n_lines = target.from + target.n_lines -
primary.from`.  If no such target exists in the file, leave the primary hit
unchanged." -/
def specExtendHit (sf tf : List String) (toHits : List GrepHit) (h : GrepHit) :
    GrepHit :=
  match specFindTarget sf tf toHits h with
  | some t => { h with n_lines := t.from_ + t.n_lines - h.from_ }
  | none => h

/-- Spec wording for `extend_to_another` as a whole: every primary hit is
extended independently. -/
def spec_extend_to_another (g sec : GrepResult) : GrepResult :=
  { g with hits := g.hits.map (specExtendHit g.files sec.files sec.hits) }

/-- Spec wording for the merge of `filter_overlaps`: "merged span covers
`[prev.from, max(prev.end, next.end))`". -/
def spec_foGo (cur : GrepHit) : List GrepHit → List GrepHit
  | [] => [cur]
  | x :: xs =>
    if cur.file_id == x.file_id && x.from_ ≤ cur.from_ + cur.n_lines then
      spec_foGo { cur with
        n_lines := max (cur.from_ + cur.n_lines) (x.from_ + x.n_lines) - cur.from_ } xs
    else
      cur :: spec_foGo x xs

/-- Spec wording for `filter_overlaps`. -/
def spec_filter_overlaps (g : GrepResult) : GrepResult :=
  { g with hits :=
      match g.hits with
      | [] => []
      | h :: t => spec_foGo h t }

/-- The `@@ -a,b +c,d @@` header line as described by the (amended) spec,
with `origFrom` the coordinate exactly as carried by the half-diff hunk line. -/
def specHunkHeader (origFrom origLen newFrom editedLen : Nat) : String :=
  "@@ -" ++ natStr origFrom ++ "," ++ natStr origLen ++ " +"
    ++ natStr newFrom ++ "," ++ natStr editedLen ++ " @@\n"

/-- The block of `-` lines of an emitted hunk. -/
def minusBlock (ls : List String) : String :=
  ls.foldl (fun acc l => acc ++ "-" ++ l ++ "\n") ""

/-- The block of `+` lines of an emitted hunk. -/
def plusBlock (ls : List String) : String :=
  ls.foldl (fun acc l => acc ++ "+" ++ l ++ "\n") ""

/-! ## Helper lemmas about `is_edited` and `dump_hunk` -/

theorem strLen_append (s t : String) : strLen (s ++ t) = strLen s + strLen t := by
  simp [strLen, String.data_append]

theorem is_edited_iff (olines buf : List String) :
    is_edited olines buf = true ↔
      ∃ i, i < olines.length ∧ buf.getD i "" ≠ olines.getD i "" := by
  induction olines generalizing buf with
  | nil => simp [is_edited]
  | cons o os ih =>
    cases buf with
    | nil =>
      simp only [is_edited, Bool.or_eq_true, bne_iff_ne, ne_eq, ih]
      constructor
      · rintro (h | ⟨i, hi, hne⟩)
        · exact ⟨0, by simp, by simpa using Ne.symm h⟩
        · exact ⟨i + 1, by simp only [List.length_cons]; omega, by simpa using hne⟩
      · rintro ⟨i, hi, hne⟩
        cases i with
        | zero => exact Or.inl (by simpa using Ne.symm (by simpa using hne))
        | succ i =>
          exact Or.inr ⟨i, by simp only [List.length_cons] at hi; omega, by simpa using hne⟩
    | cons b bs =>
      simp only [is_edited, Bool.or_eq_true, bne_iff_ne, ne_eq, ih]
      constructor
      · rintro (h | ⟨i, hi, hne⟩)
        · exact ⟨0, by simp, by simpa using h⟩
        · exact ⟨i + 1, by simp only [List.length_cons]; omega, by simpa using hne⟩
      · rintro ⟨i, hi, hne⟩
        cases i with
        | zero => exact Or.inl (by simpa using hne)
        | succ i => exact Or.inr ⟨i, by simp only [List.length_cons] at hi; omega, by simpa using hne⟩

theorem is_edited_append_right (olines rest : List String) :
    is_edited olines (olines ++ rest) = false := by
  induction olines with
  | nil => rfl
  | cons o os ih => simpa [is_edited] using ih

theorem is_edited_self (olines : List String) : is_edited olines olines = false := by
  simpa using is_edited_append_right olines []

/-- The two "clear the state" exits of `dump_hunk`. -/
theorem dump_hunk_of_isEmpty {original : List ((Nat × Nat) × List String)}
    {la : LineAcc} {ha : HunkAcc} (h : la.isEmpty = true) :
    dump_hunk original la ha = some (la.openNewHunk "", ha) := by
  simp [dump_hunk, h]

theorem dump_hunk_not_edited {original : List ((Nat × Nat) × List String)}
    {la : LineAcc} {ha : HunkAcc} {pos : Nat} {olines : List String}
    (h : la.isEmpty = false)
    (hp : parseUsize (takeUntilComma la.hunk) = some pos)
    (hl : lookupHunk original (la.id, pos) = some olines)
    (he : is_edited olines la.buf = false) :
    dump_hunk original la ha = some (la.openNewHunk "", ha) := by
  simp [dump_hunk, h, hp, hl, he]

/-- Factor an `acc ++ ...`-shaped fold over its initial accumulator. -/
theorem foldl_block_factor (p : String) (ls : List String) (init : String) :
    ls.foldl (fun acc l => acc ++ p ++ l ++ "\n") init =
      init ++ ls.foldl (fun acc l => acc ++ p ++ l ++ "\n") "" := by
  induction ls generalizing init with
  | nil => simp [List.foldl_nil, String.append_empty]
  | cons l ls ih =>
    simp only [List.foldl_cons]
    rw [ih, ih ("" ++ p ++ l ++ "\n")]
    apply String.ext
    simp [String.data_append, List.append_assoc]

/-- The emission branch of `dump_hunk`: the hunk accumulator receives the
unified hunk header (built from the carried coordinate, unchanged) followed
by the `-` block of the original lines and the `+` block of the edited
lines, and `pos_diff` advances by `edited_len - orig_len`. -/
theorem dump_hunk_edited {original : List ((Nat × Nat) × List String)}
    {la : LineAcc} {ha : HunkAcc} {pos : Nat} {olines : List String}
    (h : la.isEmpty = false)
    (hp : parseUsize (takeUntilComma la.hunk) = some pos)
    (hl : lookupHunk original (la.id, pos) = some olines)
    (he : is_edited olines la.buf = true) :
    dump_hunk original la ha =
      some ({ la.openNewHunk "" with
                pos_diff := la.pos_diff + la.edited_len - olines.length },
            { ha with buf := ha.buf
                ++ (specHunkHeader pos olines.length
                      (intToUsize ((pos : Int) + la.pos_diff)) la.edited_len
                    ++ minusBlock olines ++ plusBlock la.buf) }) := by
  simp only [dump_hunk, h, Bool.false_eq_true, if_false, hp, hl, he, Bool.not_true]
  apply congrArg
  apply congrArg
  apply congrArg
  rw [foldl_block_factor "+" la.buf, foldl_block_factor "-" olines]
  apply congrArg
  apply String.ext
  simp [specHunkHeader, minusBlock, plusBlock, String.data_append, List.append_assoc]

end Ge

namespace Ge

/-! ## Concrete builders used by the claim instances -/

/-- The `PatchBuilder` of spec scenario S1 (grep hits `  fox` at line 2 and
`  dog` at line 5 of `a.txt`, default markers). -/
def pbS1 : PatchBuilder :=
  ⟨"+++", "@@", true, true, [("a.txt", 1)], [((1, 2), ["  fox"]), ((1, 5), ["  dog"])]⟩

/-- `pbS1` really is the builder constructed by `from_grep` on the S1 grep
output with default markers. -/
theorem pbS1_from_grep :
    from_grep none none ["a.txt:2:  fox", "a.txt:5:  dog"] = .ok pbS1 := by rfl

end Ge

namespace Ge

/-! ## Claim C2 — the hunk-emission equality test -/

/-- C2 counterexample: the claim says an edited body that appends extra
lines after an otherwise unchanged original body counts as an edit and the
hunk is emitted.  In the code, `is_edited` zips the padded edited lines
against the original lines — the comparison length is the number of
*original* lines, so the appended `"  extra"` is never compared: the hunk is
not emitted and the whole edit session yields an empty patch. -/
theorem C2_counterexample :
    is_edited ["  fox"] ["  fox", "  extra"] = false ∧
      read_halfdiff pbS1
        ["+++ a.txt", "@@ 2,1", "  fox", "  extra", "@@ 5,1", "  dog"] =
        some (.ok "") :=
  ⟨rfl, rfl⟩

/-- C2 (amended): when `read_halfdiff` flushes a hunk, the edited body is
compared with the stored original lines pairwise over exactly
`len(original)` positions, padding only the *edited* side with empty
strings; edited lines beyond the original length are ignored, so a body
that appends extra lines after an unchanged original body is *not* an edit
and the hunk is not emitted.  The hunk is emitted (the hunk accumulator
changes) iff one of the compared pairs differs. -/
theorem C2_amended :
    (∀ olines buf : List String,
        is_edited olines buf = true ↔
          ∃ i, i < olines.length ∧ buf.getD i "" ≠ olines.getD i "") ∧
    (∀ olines rest : List String, is_edited olines (olines ++ rest) = false) ∧
    (∀ (original : List ((Nat × Nat) × List String)) (la : LineAcc) (ha : HunkAcc)
        (pos : Nat) (olines : List String),
        la.isEmpty = false →
        parseUsize (takeUntilComma la.hunk) = some pos →
        lookupHunk original (la.id, pos) = some olines →
        ∃ la' ha', dump_hunk original la ha = some (la', ha') ∧
          (ha' = ha ↔ is_edited olines la.buf = false)) := by
  refine ⟨is_edited_iff, is_edited_append_right, ?_⟩
  intro original la ha pos olines hemp hp hl
  cases he : is_edited olines la.buf with
  | false =>
    exact ⟨_, _, dump_hunk_not_edited hemp hp hl he, by simp⟩
  | true =>
    refine ⟨_, _, dump_hunk_edited hemp hp hl he, ?_⟩
    simp only [he, Bool.true_eq_false, iff_false]
    intro hcontra
    have hlen := congrArg (fun h => strLen h.buf) hcontra
    simp only [strLen_append] at hlen
    have hhdr : 1 ≤ strLen (specHunkHeader pos olines.length
        (intToUsize ((pos : Int) + la.pos_diff)) la.edited_len) := by
      simp [specHunkHeader, strLen, String.data_append]
    omega

/-- C2 witness: instance of the hypothesis-bearing part of `C2_amended`. -/
theorem C2_witness :
    ∃ la' ha',
      dump_hunk [((1, 2), ["a"])] ⟨1, "2,1", ["b"], 1, 0⟩ ⟨0, ""⟩ = some (la', ha') ∧
        (ha' = (⟨0, ""⟩ : HunkAcc) ↔ is_edited ["a"] ["b"] = false) :=
  C2_amended.2.2 [((1, 2), ["a"])] ⟨1, "2,1", ["b"], 1, 0⟩ ⟨0, ""⟩ 2 ["a"]
    (by rfl) (by rfl) (by rfl)

end Ge

namespace Ge

/-! ## Claim C3 — unified-diff hunk coordinates -/

/-- C3 counterexample: for the S2 scenario (single one-line hit at file line
2, `  fox` edited to `  cat`) the emitted header is `@@ -2,1 +2,1 @@`: the
coordinate is emitted exactly as carried by the half-diff hunk line (which
is the 1-based grep line number), not decremented to `L-1 = 1` as the claim
states. -/
theorem C3_counterexample :
    read_halfdiff pbS1 ["+++ a.txt", "@@ 2,1", "  cat", "@@ 5,1", "  dog"] =
      some (.ok "--- a/a.txt\n+++ b/a.txt\n@@ -2,1 +2,1 @@\n-  fox\n+  cat\n") ∧
    read_halfdiff pbS1 ["+++ a.txt", "@@ 2,1", "  cat", "@@ 5,1", "  dog"] ≠
      some (.ok "--- a/a.txt\n+++ b/a.txt\n@@ -1,1 +1,1 @@\n-  fox\n+  cat\n") :=
  ⟨by rfl, by decide⟩

/-- C3 (amended): for every emitted hunk whose half-diff coordinate line
carried the number `L`, the unified-diff header uses `orig_from = L`
exactly as carried (for grep-produced builders that is the 1-based line
number) and `new_from = L + pos_diff` coerced back into `usize` range by a
two's-complement wrap; concretely, for a single one-line hit at file line 2
edited from `  fox` to `  cat`, the emitted header is `@@ -2,1 +2,1 @@`. -/
theorem C3_amended :
    (∀ (original : List ((Nat × Nat) × List String)) (la : LineAcc) (ha : HunkAcc)
        (pos : Nat) (olines : List String),
        la.isEmpty = false →
        parseUsize (takeUntilComma la.hunk) = some pos →
        lookupHunk original (la.id, pos) = some olines →
        is_edited olines la.buf = true →
        dump_hunk original la ha =
          some ({ la.openNewHunk "" with
                    pos_diff := la.pos_diff + la.edited_len - olines.length },
                { ha with buf := ha.buf
                    ++ (specHunkHeader pos olines.length
                          (intToUsize ((pos : Int) + la.pos_diff)) la.edited_len
                        ++ minusBlock olines ++ plusBlock la.buf) })) ∧
    read_halfdiff pbS1 ["+++ a.txt", "@@ 2,1", "  cat", "@@ 5,1", "  dog"] =
      some (.ok ("--- a/a.txt\n+++ b/a.txt\n"
        ++ specHunkHeader 2 1 2 1 ++ minusBlock ["  fox"] ++ plusBlock ["  cat"])) :=
  ⟨fun _ _ _ _ _ hemp hp hl he => dump_hunk_edited hemp hp hl he, by rfl⟩

/-- C3 witness: instance of the hypothesis-bearing part of `C3_amended`. -/
theorem C3_witness :
    dump_hunk [((1, 2), ["  fox"])] ⟨1, "2,1", ["  cat"], 1, 0⟩ ⟨0, ""⟩ =
      some ({ (⟨1, "2,1", ["  cat"], 1, 0⟩ : LineAcc).openNewHunk "" with
                pos_diff := (0 : Int) + (1 : Nat) - ([("  fox" : String)]).length },
            { (⟨0, ""⟩ : HunkAcc) with buf := "" ++ (specHunkHeader 2 1
                  (intToUsize ((2 : Nat) + (0 : Int))) 1
                ++ minusBlock ["  fox"] ++ plusBlock ["  cat"]) }) :=
  C3_amended.1 [((1, 2), ["  fox"])] ⟨1, "2,1", ["  cat"], 1, 0⟩ ⟨0, ""⟩ 2 ["  fox"]
    (by rfl) (by rfl) (by rfl) (by rfl)

end Ge

namespace Ge

/-! ## Claim C8 — `collect_head` -/

theorem dedupAdj_sublist {α : Type} [DecidableEq α] : ∀ l : List α, List.Sublist (dedupAdj l) l
  | [] => by simp [dedupAdj]
  | [a] => by simp [dedupAdj]
  | a :: b :: t => by
    by_cases h : a = b
    · simp only [dedupAdj, if_pos h]
      exact (dedupAdj_sublist (b :: t)).cons a
    · simp only [dedupAdj, if_neg h]
      exact (dedupAdj_sublist (b :: t)).cons₂ a

theorem mem_dedupAdj {α : Type} [DecidableEq α] :
    ∀ (l : List α) (x : α), x ∈ l → x ∈ dedupAdj l
  | [a], x, hx => by simpa [dedupAdj] using hx
  | a :: b :: t, x, hx => by
    by_cases h : a = b
    · simp only [dedupAdj, if_pos h]
      rcases List.mem_cons.mp hx with rfl | hx'
      · exact mem_dedupAdj (b :: t) x (h ▸ List.mem_cons_self _ _)
      · exact mem_dedupAdj (b :: t) x hx'
    · simp only [dedupAdj, if_neg h]
      rcases List.mem_cons.mp hx with rfl | hx'
      · exact List.mem_cons_self _ _
      · exact List.mem_cons_of_mem _ (mem_dedupAdj (b :: t) x hx')

theorem dedupAdj_pairwise_strict {α κ : Type} [DecidableEq α] [LinearOrder κ]
    {f : α → κ} (hf : Function.Injective f) :
    ∀ l : List α, l.Pairwise (leByKey f) →
      (dedupAdj l).Pairwise (fun a b => f a < f b)
  | [], _ => by simp [dedupAdj]
  | [a], _ => by simp [dedupAdj]
  | a :: b :: t, hp => by
    obtain ⟨ha, hbt⟩ := List.pairwise_cons.mp hp
    by_cases h : a = b
    · simp only [dedupAdj, if_pos h]
      exact dedupAdj_pairwise_strict hf (b :: t) hbt
    · simp only [dedupAdj, if_neg h]
      refine List.pairwise_cons.mpr ⟨?_, dedupAdj_pairwise_strict hf (b :: t) hbt⟩
      intro y hy
      have hyin : y ∈ b :: t := (dedupAdj_sublist (b :: t)).subset hy
      have hay : f a ≤ f y := ha y hyin
      rcases lt_or_eq_of_le hay with hlt | heq
      · exact hlt
      · exfalso
        rcases List.mem_cons.mp hyin with rfl | hyt
        · exact h (hf heq)
        · have hby : f b ≤ f y := (List.pairwise_cons.mp hbt).1 y hyt
          have hab : f a ≤ f b := ha b (List.mem_cons_self _ _)
          exact h (hf (le_antisymm hab (heq ▸ hby)))

theorem hitLexKey_injective : Function.Injective hitLexKey := by
  intro a b h
  cases a
  cases b
  simp only [hitLexKey, toLex_inj, Prod.mk.injEq] at h
  simp_all

/-- C8 counterexample: `collect_head` does not reset `level` to 0, so two
hits of one file at distinct indent levels survive the sort-dedup as two
hits — the claim's "exactly one hit, equal to `(file_id, 0, n, 0)`" fails. -/
theorem C8_counterexample :
    (collect_head ⟨["a"], [⟨0, 1, 1, 0⟩, ⟨0, 5, 1, 4⟩]⟩ 3).hits =
      [⟨0, 0, 3, 0⟩, ⟨0, 0, 3, 4⟩] ∧
    (collect_head ⟨["a"], [⟨0, 1, 1, 0⟩, ⟨0, 5, 1, 4⟩]⟩ 3).hits ≠
      [⟨0, 0, 3, 0⟩] :=
  ⟨by rfl, by decide⟩

/-- C8 (amended): `collect_head(n)` replaces every hit's `from` with 0 and
`n_lines` with `n` but keeps its `level`; after the sort and adjacent dedup
a file keeps one hit per distinct level.  When every input hit has level 0
(the claim's situation with `level` actually zeroed), every output hit is
`(file_id, 0, n, 0)` for a file that had a hit, and each such file is left
with exactly one such hit. -/
theorem C8_amended (g : GrepResult) (n : Nat) (hlvl : ∀ h ∈ g.hits, h.level = 0) :
    (∀ h' ∈ (collect_head g n).hits,
        h' = ⟨h'.file_id, 0, n, 0⟩ ∧ ∃ h ∈ g.hits, h.file_id = h'.file_id) ∧
    (∀ fid, (∃ h ∈ g.hits, h.file_id = fid) →
        (collect_head g n).hits.count ⟨fid, 0, n, 0⟩ = 1) := by
  set M := g.hits.map (fun h => { h with from_ := 0, n_lines := n }) with hM
  have hmemM : ∀ h' ∈ M, h' = ⟨h'.file_id, 0, n, 0⟩ ∧
      ∃ h ∈ g.hits, h.file_id = h'.file_id := by
    intro h' hh'
    rw [hM] at hh'
    obtain ⟨h, hh, rfl⟩ := List.mem_map.mp hh'
    exact ⟨by simp [hlvl h hh], h, hh, rfl⟩
  have hhits : (collect_head g n).hits = dedupAdj (sortByKey hitLexKey M) := rfl
  have hperm := sortByKey_perm hitLexKey M
  constructor
  · intro h' hh'
    rw [hhits] at hh'
    exact hmemM h' (hperm.subset ((dedupAdj_sublist _).subset hh'))
  · intro fid ⟨h, hh, hfid⟩
    have hmem : (⟨fid, 0, n, 0⟩ : GrepHit) ∈ M := by
      rw [hM]
      refine List.mem_map.mpr ⟨h, hh, ?_⟩
      have := hlvl h hh
      cases h
      simp_all
    have hmemD : (⟨fid, 0, n, 0⟩ : GrepHit) ∈ (collect_head g n).hits := by
      rw [hhits]
      exact mem_dedupAdj _ _ (hperm.mem_iff.mpr hmem)
    have hnodup : (collect_head g n).hits.Nodup := by
      rw [hhits]
      exact (dedupAdj_pairwise_strict hitLexKey_injective _
        (sortByKey_sorted hitLexKey M)).imp (fun hlt heq => absurd (heq ▸ hlt) (lt_irrefl _))
    exact Nat.le_antisymm (List.nodup_iff_count_le_one.mp hnodup _)
      (List.count_pos_iff.mpr hmemD)

/-- C8 witness: instance of `C8_amended` at a concrete two-file result. -/
theorem C8_witness :
    (collect_head ⟨["a", "b"], [⟨0, 2, 1, 0⟩, ⟨1, 5, 2, 0⟩]⟩ 3).hits.count ⟨0, 0, 3, 0⟩ = 1 :=
  (C8_amended ⟨["a", "b"], [⟨0, 2, 1, 0⟩, ⟨1, 5, 2, 0⟩]⟩ 3 (by decide)).2 0
    ⟨⟨0, 2, 1, 0⟩, by decide, rfl⟩

end Ge

namespace Ge

/-! ## Claim C5 — `filter_overlaps` -/

/-- The merge loops of the code and of the spec coincide as long as the
running survivor's end never exceeds the end of the hit it merges with. -/
theorem foGo_eq_spec :
    ∀ (xs : List GrepHit) (cur : GrepHit),
      (∀ y ∈ xs, cur.file_id = y.file_id →
        cur.from_ + cur.n_lines ≤ y.from_ + y.n_lines) →
      xs.Pairwise (fun a b => a.file_id = b.file_id →
        a.from_ + a.n_lines ≤ b.from_ + b.n_lines) →
      foGo cur xs = spec_foGo cur xs
  | [], cur, _, _ => rfl
  | x :: xs, cur, hcur, hp => by
    obtain ⟨hx, hxs⟩ := List.pairwise_cons.mp hp
    cases hc : (cur.file_id == x.file_id && decide (x.from_ ≤ cur.from_ + cur.n_lines)) with
    | true =>
      have hfid : cur.file_id = x.file_id := by
        have := (Bool.and_eq_true _ _).mp hc
        exact beq_iff_eq.mp this.1
      have hend : cur.from_ + cur.n_lines ≤ x.from_ + x.n_lines := hcur x (List.mem_cons_self _ _) hfid
      have hmax : max (cur.from_ + cur.n_lines) (x.from_ + x.n_lines) = x.from_ + x.n_lines :=
        Nat.max_eq_right hend
      simp only [foGo, spec_foGo, hc, if_true, hmax]
      apply foGo_eq_spec xs
      · intro y hy hfy
        have hxy : x.from_ + x.n_lines ≤ y.from_ + y.n_lines := by
          apply hx y hy
          simpa [hfid] using hfy
        have hfromle : cur.from_ ≤ x.from_ + x.n_lines := le_trans (Nat.le_add_right _ _) hend
        simpa [Nat.add_sub_cancel' hfromle] using hxy
      · exact hxs
    | false =>
      simp only [foGo, spec_foGo, hc, Bool.false_eq_true, if_false]
      exact congrArg (List.cons cur) (foGo_eq_spec xs x (fun y hy => hx y hy) hxs)

/-- C5 counterexample: a successor fully contained in its predecessor
shrinks the merged hit — `[10, 15)` merged with `[11, 12)` becomes
`[10, 12)`, not the claim's `[10, max(15, 12)) = [10, 15)`. -/
theorem C5_counterexample :
    (filter_overlaps ⟨["a"], [⟨0, 10, 5, 0⟩, ⟨0, 11, 1, 0⟩]⟩).hits = [⟨0, 10, 2, 0⟩] ∧
    (spec_filter_overlaps ⟨["a"], [⟨0, 10, 5, 0⟩, ⟨0, 11, 1, 0⟩]⟩).hits = [⟨0, 10, 5, 0⟩] ∧
    filter_overlaps ⟨["a"], [⟨0, 10, 5, 0⟩, ⟨0, 11, 1, 0⟩]⟩ ≠
      spec_filter_overlaps ⟨["a"], [⟨0, 10, 5, 0⟩, ⟨0, 11, 1, 0⟩]⟩ :=
  ⟨by rfl, by rfl, by decide⟩

/-- C5 (amended): `filter_overlaps` merges a hit into its predecessor
exactly when both are in the same file and `prev.from + prev.n_lines >=
next.from`, and the merged hit spans `[prev.from, next.from + next.n_lines)`
— the successor's end is taken unconditionally, so the merge agrees with the
claim's `max(prev.end, next.end)` span (and never shrinks) only when no hit
ends after a later overlapping hit of the same file; a fully contained
successor shrinks the predecessor's extent to the successor's end. -/
theorem C5_amended (g : GrepResult)
    (hmono : g.hits.Pairwise (fun a b => a.file_id = b.file_id →
      a.from_ + a.n_lines ≤ b.from_ + b.n_lines)) :
    filter_overlaps g = spec_filter_overlaps g := by
  cases g with
  | mk files hits =>
    cases hits with
    | nil => rfl
    | cons h t =>
      obtain ⟨hh, ht⟩ := List.pairwise_cons.mp hmono
      simp only [filter_overlaps, spec_filter_overlaps]
      exact congrArg (fun l => GrepResult.mk files l) (foGo_eq_spec t h hh ht)

/-- C5 witness: instance of `C5_amended` on the spec's own S6 scenario. -/
theorem C5_witness :
    filter_overlaps ⟨["a"], [⟨0, 10, 5, 0⟩, ⟨0, 14, 3, 0⟩]⟩ =
      spec_filter_overlaps ⟨["a"], [⟨0, 10, 5, 0⟩, ⟨0, 14, 3, 0⟩]⟩ :=
  C5_amended ⟨["a"], [⟨0, 10, 5, 0⟩, ⟨0, 14, 3, 0⟩]⟩ (by decide)

end Ge

namespace Ge

/-! ## Claim C4 — `extend_to_another` -/

/-- The order key of a hit: its `(filename, from)` pair in byte order. -/
def hitOrdKey (files : List String) (h : GrepHit) : (List ℕ) ×ₗ ℕ :=
  toLex (strOrdKey (fileOf files h), h.from_)

/-- Sortedness of a hit list by its `(filename, from)` keys. -/
def keyLe (files : List String) (x y : GrepHit) : Prop :=
  hitOrdKey files x ≤ hitOrdKey files y

instance (files : List String) : DecidableRel (keyLe files) :=
  fun x y => inferInstanceAs (Decidable (hitOrdKey files x ≤ hitOrdKey files y))

theorem pairLeB_eq_true_iff (a b : String × Nat) :
    pairLeB a b = true ↔ toLex (strOrdKey a.1, a.2) ≤ toLex (strOrdKey b.1, b.2) := by
  rw [Prod.Lex.le_iff]
  simp only [pairLeB, Bool.or_eq_true, Bool.and_eq_true, decide_eq_true_iff, beq_iff_eq]
  constructor
  · rintro (h | ⟨h1, h2⟩)
    · exact Or.inl h
    · exact Or.inr ⟨by rw [h1], h2⟩
  · rintro (h | ⟨h1, h2⟩)
    · exact Or.inl h
    · exact Or.inr ⟨strOrdKey_injective h1, h2⟩

/-- The predicate of `specFindTarget`, abbreviated. -/
def specPred (sf tf : List String) (h x : GrepHit) : Bool :=
  fileOf tf x == fileOf sf h && decide (h.from_ ≤ x.from_) && (x.level == h.level)

theorem specFindTarget_eq_find (sf tf : List String) (toHits : List GrepHit) (h : GrepHit) :
    specFindTarget sf tf toHits h = toHits.find? (specPred sf tf h) := rfl

/-- A spec-side target always satisfies the code's break condition. -/
theorem etCond_of_specPred {sf tf : List String} {h x : GrepHit}
    (hp : specPred sf tf h x = true) : etCond sf tf h x = true := by
  simp only [specPred, Bool.and_eq_true, beq_iff_eq, decide_eq_true_iff] at hp
  obtain ⟨⟨hf, hfrom⟩, hlvl⟩ := hp
  simp only [etCond, Bool.and_eq_true, beq_iff_eq]
  refine ⟨?_, hlvl⟩
  rw [pairLeB_eq_true_iff, Prod.Lex.le_iff]
  refine Or.inr ⟨?_, hfrom⟩
  show strOrdKey (fileOf sf h) = strOrdKey (fileOf tf x)
  rw [hf]

theorem etSkip_cons_false {sf tf : List String} {h x : GrepHit} {xs : List GrepHit}
    (hc : etCond sf tf h x = false) :
    etSkip sf tf h (x :: xs) = etSkip sf tf h xs := by
  simp [etSkip, hc]

theorem etSkip_cons_true {sf tf : List String} {h x : GrepHit} {xs : List GrepHit}
    (hc : etCond sf tf h x = true) :
    etSkip sf tf h (x :: xs) = x :: xs := by
  simp [etSkip, hc]

theorem etGo_cons_skip {sf tf : List String} {h : GrepHit} {hs : List GrepHit}
    {x : GrepHit} {xs : List GrepHit} (hc : etCond sf tf h x = false) :
    etGo sf tf (h :: hs) (x :: xs) = etGo sf tf (h :: hs) xs := by
  simp only [etGo, etSkip_cons_false hc]

/-- The per-hit claim holds for a primary result carrying a single hit,
provided the secondary hits are sorted by `(filename, from)`. -/
theorem etGo_singleton (sf tf : List String) (h : GrepHit) :
    ∀ toHits : List GrepHit, toHits.Pairwise (keyLe tf) →
      etGo sf tf [h] toHits = [specExtendHit sf tf toHits h]
  | [], _ => rfl
  | x :: xs, hsort => by
    obtain ⟨hx, hxs⟩ := List.pairwise_cons.mp hsort
    cases hcond : etCond sf tf h x with
    | false =>
      have hpred : specPred sf tf h x = false := by
        cases hp : specPred sf tf h x with
        | false => rfl
        | true => rw [etCond_of_specPred hp] at hcond; exact absurd hcond (by simp)
      have hfind : List.find? (specPred sf tf h) (x :: xs) = List.find? (specPred sf tf h) xs :=
        List.find?_cons_of_neg xs (by simp [hpred])
      rw [etGo_cons_skip hcond, etGo_singleton sf tf h xs hxs]
      simp only [specExtendHit, specFindTarget_eq_find, hfind]
    | true =>
      have hle : toLex (strOrdKey (fileOf sf h), h.from_) ≤
          toLex (strOrdKey (fileOf tf x), x.from_) := by
        have := (Bool.and_eq_true _ _).mp hcond
        exact (pairLeB_eq_true_iff (hitKey sf h) (hitKey tf x)).mp this.1
      have hlvl : x.level = h.level := by
        have := (Bool.and_eq_true _ _).mp hcond
        exact beq_iff_eq.mp this.2
      cases hfe : (fileOf tf x == fileOf sf h) with
      | false =>
        have hne : fileOf tf x ≠ fileOf sf h := by simpa using hfe
        have hflt : strOrdKey (fileOf sf h) < strOrdKey (fileOf tf x) := by
          rcases (Prod.Lex.le_iff _ _).mp hle with hlt | ⟨heq, _⟩
          · exact hlt
          · exact absurd (strOrdKey_injective heq).symm hne
        have hnone : List.find? (specPred sf tf h) (x :: xs) = none := by
          rw [List.find?_eq_none]
          intro y hy
          rcases List.mem_cons.mp hy with rfl | hyt
          · simp [specPred, hne]
          · intro hp
            simp only [specPred, Bool.and_eq_true, beq_iff_eq, decide_eq_true_iff] at hp
            have hxy : toLex (strOrdKey (fileOf tf x), x.from_) ≤
                toLex (strOrdKey (fileOf tf y), y.from_) := hx y hyt
            have hfxy : strOrdKey (fileOf tf x) ≤ strOrdKey (fileOf tf y) := by
              rcases (Prod.Lex.le_iff _ _).mp hxy with hlt2 | ⟨heq2, _⟩
              · exact le_of_lt hlt2
              · exact le_of_eq heq2
            rw [hp.1.1] at hfxy
            exact absurd (lt_of_lt_of_le hflt hfxy) (lt_irrefl _)
        simp only [etGo, etSkip_cons_true hcond, bne, hfe, Bool.not_false, if_true,
          specExtendHit, specFindTarget_eq_find, hnone]
      | true =>
        have hfeq : fileOf tf x = fileOf sf h := beq_iff_eq.mp hfe
        have hfrom : h.from_ ≤ x.from_ := by
          rcases (Prod.Lex.le_iff _ _).mp hle with hlt | ⟨_, hle2⟩
          · have hlt' : strOrdKey (fileOf sf h) < strOrdKey (fileOf tf x) := hlt
            rw [hfeq] at hlt'
            exact absurd hlt' (lt_irrefl _)
          · exact hle2
        have hpred : specPred sf tf h x = true := by
          simp [specPred, hfeq, hfrom, hlvl]
        have hfind : List.find? (specPred sf tf h) (x :: xs) = some x :=
          List.find?_cons_of_pos xs hpred
        simp only [etGo, etSkip_cons_true hcond, bne, hfe, Bool.not_true,
          Bool.false_eq_true, if_false, specExtendHit, specFindTarget_eq_find, hfind]

/-- C4 counterexample: the secondary iterator is shared across primary hits;
while processing the first primary (level 0) it consumes the level-1
secondary hit at line 3 and is exhausted, so the second primary (level 1,
line 2) is left unchanged even though that secondary hit is its spec target
(`n_lines` should become `3 + 1 - 2 = 2`). -/
theorem C4_counterexample :
    extend_to_another ⟨["a"], [⟨0, 0, 1, 0⟩, ⟨0, 2, 1, 1⟩]⟩ ⟨["a"], [⟨0, 3, 1, 1⟩]⟩ =
      ⟨["a"], [⟨0, 0, 1, 0⟩, ⟨0, 2, 1, 1⟩]⟩ ∧
    spec_extend_to_another ⟨["a"], [⟨0, 0, 1, 0⟩, ⟨0, 2, 1, 1⟩]⟩ ⟨["a"], [⟨0, 3, 1, 1⟩]⟩ =
      ⟨["a"], [⟨0, 0, 1, 0⟩, ⟨0, 2, 2, 1⟩]⟩ ∧
    extend_to_another ⟨["a"], [⟨0, 0, 1, 0⟩, ⟨0, 2, 1, 1⟩]⟩ ⟨["a"], [⟨0, 3, 1, 1⟩]⟩ ≠
      spec_extend_to_another ⟨["a"], [⟨0, 0, 1, 0⟩, ⟨0, 2, 1, 1⟩]⟩ ⟨["a"], [⟨0, 3, 1, 1⟩]⟩ :=
  ⟨by rfl, by rfl, by decide⟩

/-- C4 (amended): the earliest-target description is valid for the first
primary hit processed (here: a primary result with a single hit), provided
the secondary hits are sorted by `(filename, from)`; the moving pointer
makes later primaries depend on what earlier ones skipped or consumed, and
an exhausted secondary iterator leaves all remaining primaries unchanged. -/
theorem C4_amended :
    (∀ (files : List String) (h : GrepHit) (sec : GrepResult),
        sec.hits.Pairwise (keyLe sec.files) →
        extend_to_another ⟨files, [h]⟩ sec = spec_extend_to_another ⟨files, [h]⟩ sec) ∧
    (∀ (g sec : GrepResult), sec.hits = [] → extend_to_another g sec = g) := by
  constructor
  · intro files h sec hsort
    simp only [extend_to_another, spec_extend_to_another, List.map_cons, List.map_nil]
    exact congrArg (fun l => GrepResult.mk files l) (etGo_singleton files sec.files h sec.hits hsort)
  · intro g sec hnil
    cases g with
    | mk files hits =>
      simp only [extend_to_another, hnil]
      cases hits <;> rfl

/-- C4 witness: instance of the first part of `C4_amended` on the spec's S5
scenario restricted to one primary hit. -/
theorem C4_witness :
    extend_to_another ⟨["a"], [⟨0, 10, 1, 0⟩]⟩ ⟨["a"], [⟨0, 12, 1, 4⟩, ⟨0, 15, 1, 0⟩]⟩ =
      spec_extend_to_another ⟨["a"], [⟨0, 10, 1, 0⟩]⟩ ⟨["a"], [⟨0, 12, 1, 4⟩, ⟨0, 15, 1, 0⟩]⟩ :=
  C4_amended.1 ["a"] ⟨0, 10, 1, 0⟩ ⟨["a"], [⟨0, 12, 1, 4⟩, ⟨0, 15, 1, 0⟩]⟩ (by decide)

end Ge

namespace Ge

/-! ## Claim C9 — malformed grep lines -/

/-- C9: `parse_line` itself returns the `MalformedGrepLine` diagnostics, but
`from_raw` calls `parse_line(line).unwrap()` inside its parse closure, so on
a line without NUL delimiters (or with an unparseable line number)
`GrepResult` construction panics (`none`) instead of surfacing the error. -/
theorem C9_from_raw_panics :
    parse_line "a.txt:2:fox" =
      .error "MalformedGrepLine: failed to find filename-linenumber delimiter" ∧
    from_raw ["a.txt:2:fox"] true = none ∧
    parse_line "a.txt\x00xx\x00fox" =
      .error "MalformedGrepLine: broken grep line number" ∧
    from_raw ["a.txt\x00xx\x00fox"] true = none ∧
    from_raw ["a.txt\x002\x00fox", "a.txt:2:fox"] true = none :=
  ⟨by rfl, by rfl, by rfl, by rfl, by rfl⟩

/-! ## Claim C7 — marker collision avoidance -/

theorem scan_lines_false_iff (hs : List ((Nat × Nat) × List String)) (m : String) :
    scan_lines hs m = false ↔
      ∀ kl ∈ hs, ∀ l ∈ kl.2, startsWithStr m l = false := by
  simp [scan_lines]

theorem avoidLoop_ok_spec (scan : String → Bool) (avoid : Bool) (c : Char) :
    ∀ (fuel : Nat) (m m' : String), 1 ≤ fuel →
      avoidLoop scan avoid c fuel m = .ok m' →
      scan m' = false ∧ ∃ k, k ≤ fuel - 1 ∧ m'.data = m.data ++ List.replicate k c
  | fuel + 1, m, m', _, hok => by
    rw [avoidLoop] at hok
    cases hscan : scan m with
    | false =>
      rw [hscan] at hok
      simp only [Bool.not_false, if_true, Except.ok.injEq] at hok
      subst hok
      exact ⟨hscan, 0, by omega, by simp⟩
    | true =>
      rw [hscan] at hok
      simp only [Bool.not_true, Bool.false_eq_true, if_false] at hok
      by_cases hstop : (fuel == 0 || !avoid) = true
      · rw [if_pos hstop] at hok
        exact absurd hok (by simp)
      · rw [if_neg hstop] at hok
        have hfuel : 1 ≤ fuel := by
          rcases Nat.eq_zero_or_pos fuel with rfl | h
          · simp at hstop
          · exact h
        obtain ⟨hs', k, hk, hdata⟩ := avoidLoop_ok_spec scan avoid c fuel (m.push c) m' hfuel hok
        refine ⟨hs', k + 1, by omega, ?_⟩
        rw [hdata, String.data_push]
        simp [List.replicate_succ, List.append_assoc]

theorem avoidLoop_err_fixed (scan : String → Bool) (c : Char)
    {fuel : Nat} {m : String} (hscan : scan m = true) (hfuel : 1 ≤ fuel) :
    ∃ e, avoidLoop scan false c fuel m = .error e := by
  cases fuel with
  | zero => omega
  | succ f =>
    rw [avoidLoop, hscan]
    simp

theorem avoidLoop_err_bound (scan : String → Bool) (c : Char) :
    ∀ (fuel : Nat) (m : String), 1 ≤ fuel →
      (∀ k, k ≤ fuel - 1 → scan ⟨m.data ++ List.replicate k c⟩ = true) →
      ∃ e, avoidLoop scan true c fuel m = .error e
  | fuel + 1, m, _, hscan => by
    have hm : scan m = true := by
      have := hscan 0 (by omega)
      simpa [show (⟨m.data ++ []⟩ : String) = m from by cases m; simp] using this
    rw [avoidLoop, hm]
    simp only [Bool.not_true, Bool.false_eq_true, if_false, Bool.not_true, Bool.or_false]
    cases hf : (fuel == 0) with
    | true => simp
    | false =>
      simp only [Bool.false_eq_true, if_false]
      have hfuel : 1 ≤ fuel := by
        have := (beq_iff_eq (a := fuel) (b := 0)).not.mp (by simp [hf])
        omega
      apply avoidLoop_err_bound scan c fuel (m.push c) hfuel
      intro k hk
      have := hscan (k + 1) (by omega)
      simpa [String.data_push, List.replicate_succ, List.append_assoc] using this

/-- C7: whenever `from_grep` succeeds, no stored body line starts with
either final marker (so no rendered half-diff body line does); each final
marker is the configured one extended by at most 16 `+`/`@`; and
construction fails when a user-fixed marker collides (header or hunk) or
when the 16-extension bound cannot avoid a collision (for `+` and for
`@` alike). -/
theorem C7_marker_discipline :
    (∀ (header hunk : Option String) (raw : List String) (pb : PatchBuilder),
        from_grep header hunk raw = .ok pb →
        scan_lines pb.raw_hunks pb.header_marker = false ∧
        scan_lines pb.raw_hunks pb.hunk_marker = false ∧
        (∀ kl ∈ pb.raw_hunks, ∀ l ∈ kl.2,
          startsWithStr pb.header_marker l = false ∧
          startsWithStr pb.hunk_marker l = false) ∧
        (∃ k, k ≤ 16 ∧
          pb.header_marker.data = (header.getD "+++").data ++ List.replicate k '+') ∧
        (∃ k, k ≤ 16 ∧
          pb.hunk_marker.data = (hunk.getD "@@").data ++ List.replicate k '@')) ∧
    (∀ (h : String) (hunk : Option String) (raw : List String) (st : PGState),
        parse_grep ⟨0, 0, 0, [], []⟩ raw = .ok st →
        scan_lines st.raw_hunks h = true →
        ∃ e, from_grep (some h) hunk raw = .error e) ∧
    (∀ (hunk : Option String) (raw : List String) (st : PGState),
        parse_grep ⟨0, 0, 0, [], []⟩ raw = .ok st →
        (∀ k, k ≤ 16 →
          scan_lines st.raw_hunks ⟨("+++" : String).data ++ List.replicate k '+'⟩ = true) →
        ∃ e, from_grep none hunk raw = .error e) ∧
    (∀ (header : Option String) (q : String) (raw : List String) (st : PGState),
        parse_grep ⟨0, 0, 0, [], []⟩ raw = .ok st →
        scan_lines st.raw_hunks q = true →
        ∃ e, from_grep header (some q) raw = .error e) ∧
    (∀ (header : Option String) (raw : List String) (st : PGState),
        parse_grep ⟨0, 0, 0, [], []⟩ raw = .ok st →
        (∀ k, k ≤ 16 →
          scan_lines st.raw_hunks ⟨("@@" : String).data ++ List.replicate k '@'⟩ = true) →
        ∃ e, from_grep header none raw = .error e) := by
  refine ⟨?_, ?_, ?_, ?_, ?_⟩
  · intro header hunk raw pb hok
    cases hpg : parse_grep ⟨0, 0, 0, [], []⟩ raw with
    | error e => simp [from_grep, hpg] at hok
    | ok st =>
      simp only [from_grep, hpg, avoid_collision] at hok
      cases h1 : avoidLoop (scan_lines st.raw_hunks) header.isNone '+' 17 (header.getD "+++") with
      | error e => rw [h1] at hok; exact absurd hok (by simp)
      | ok hm =>
        rw [h1] at hok
        cases h2 : avoidLoop (scan_lines st.raw_hunks) hunk.isNone '@' 17 (hunk.getD "@@") with
        | error e => rw [h2] at hok; exact absurd hok (by simp)
        | ok qm =>
          rw [h2] at hok
          simp only [Except.ok.injEq] at hok
          subst hok
          obtain ⟨hs1, k1, hk1, hd1⟩ :=
            avoidLoop_ok_spec _ _ _ 17 (header.getD "+++") hm (by omega) h1
          obtain ⟨hs2, k2, hk2, hd2⟩ :=
            avoidLoop_ok_spec _ _ _ 17 (hunk.getD "@@") qm (by omega) h2
          refine ⟨hs1, hs2, ?_, ⟨k1, by omega, hd1⟩, ⟨k2, by omega, hd2⟩⟩
          intro kl hkl l hl
          exact ⟨(scan_lines_false_iff _ _).mp hs1 kl hkl l hl,
                 (scan_lines_false_iff _ _).mp hs2 kl hkl l hl⟩
  · intro h hunk raw st hpg hscan
    obtain ⟨e, he⟩ := @avoidLoop_err_fixed (scan_lines st.raw_hunks) '+'
      17 h hscan (by omega)
    refine ⟨e, ?_⟩
    simp only [from_grep, hpg, avoid_collision, Option.getD_some, Option.isNone_some]
    rw [he]
  · intro hunk raw st hpg hscan
    obtain ⟨e, he⟩ := avoidLoop_err_bound (scan_lines st.raw_hunks) '+' 17 "+++"
      (by omega) (fun k hk => hscan k (by omega))
    refine ⟨e, ?_⟩
    simp only [from_grep, hpg, avoid_collision, Option.getD_none, Option.isNone_none]
    rw [he]
  · intro header q raw st hpg hscan
    simp only [from_grep, hpg, avoid_collision, Option.getD_some, Option.isNone_some]
    cases h1 : avoidLoop (scan_lines st.raw_hunks) header.isNone '+' 17 (header.getD "+++") with
    | error e1 => exact ⟨e1, rfl⟩
    | ok hm =>
      obtain ⟨e, he⟩ := @avoidLoop_err_fixed (scan_lines st.raw_hunks) '@'
        17 q hscan (by omega)
      exact ⟨e, by rw [he]⟩
  · intro header raw st hpg hscan
    simp only [from_grep, hpg, avoid_collision, Option.getD_none, Option.isNone_none]
    cases h1 : avoidLoop (scan_lines st.raw_hunks) header.isNone '+' 17 (header.getD "+++") with
    | error e1 => exact ⟨e1, rfl⟩
    | ok hm =>
      obtain ⟨e, he⟩ := avoidLoop_err_bound (scan_lines st.raw_hunks) '@' 17 "@@"
        (by omega) (fun k hk => hscan k (by omega))
      exact ⟨e, by rw [he]⟩

/-- C7 witness: concrete instances of all five parts of
`C7_marker_discipline`. -/
theorem C7_witness :
    (scan_lines [((1, 1), ["+++x"])] "++++" = false ∧
      scan_lines [((1, 1), ["+++x"])] "@@" = false) ∧
    (∃ e, from_grep (some "+") none ["a:1:+x"] = .error e) ∧
    (∃ e, from_grep none none
      ["a:1:++++++++++++++++++++x"] = .error e) ∧
    (∃ e, from_grep none (some "x") ["a:1:xy"] = .error e) ∧
    (∃ e, from_grep none none
      ["a:1:@@@@@@@@@@@@@@@@@@x"] = .error e) := by
  refine ⟨?_, ?_, ?_, ?_, ?_⟩
  · have := C7_marker_discipline.1 none none ["a.txt:1:+++x"]
      ⟨"++++", "@@", true, true, [("a.txt", 1)], [((1, 1), ["+++x"])]⟩ (by rfl)
    exact ⟨this.1, this.2.1⟩
  · exact C7_marker_discipline.2.1 "+" none ["a:1:+x"]
      ⟨1, 1, 1, [("a", 1)], [((1, 1), ["+x"])]⟩ (by rfl) (by rfl)
  · exact C7_marker_discipline.2.2.1 none ["a:1:++++++++++++++++++++x"]
      ⟨1, 1, 1, [("a", 1)], [((1, 1), ["++++++++++++++++++++x"])]⟩ (by rfl) (by decide)
  · exact C7_marker_discipline.2.2.2.1 none "x" ["a:1:xy"]
      ⟨1, 1, 1, [("a", 1)], [((1, 1), ["xy"])]⟩ (by rfl) (by rfl)
  · exact C7_marker_discipline.2.2.2.2 none ["a:1:@@@@@@@@@@@@@@@@@@x"]
      ⟨1, 1, 1, [("a", 1)], [((1, 1), ["@@@@@@@@@@@@@@@@@@x"])]⟩ (by rfl) (by decide)

end Ge

namespace Ge

/-! ## Claim C10 — panic freedom of `read_halfdiff` -/

/-- The flush precondition: the pending hunk is either empty or its
coordinate parses and names a stored original hunk `(file_id, pos)`. -/
def flushOk (orig : List ((Nat × Nat) × List String)) (id : Nat) (hunk : String) : Bool :=
  (id == 0 || hunk == "") ||
    (match parseUsize (takeUntilComma hunk) with
     | none => false
     | some pos => (lookupHunk orig (id, pos)).isSome)

/-- The precondition of `read_halfdiff`, tracking the current file id and
pending hunk coordinate through the input lines: every flush point satisfies
`flushOk` and every body line is preceded by a header and a hunk marker. -/
def precOk (pb : PatchBuilder) : Nat → String → List String → Bool
  | id, hunk, [] => flushOk pb.raw_hunks id hunk
  | id, hunk, l :: ls =>
    if startsWithStr pb.header_marker l then
      flushOk pb.raw_hunks id hunk &&
        (match lookupFile pb.files (trimStr (dropStr l (strLen pb.header_marker))) with
         | none => true
         | some id2 => precOk pb id2 "" ls)
    else if startsWithStr pb.hunk_marker l then
      flushOk pb.raw_hunks id hunk &&
        precOk pb id (trimStr (dropStr l (strLen pb.hunk_marker))) ls
    else
      !(id == 0 || hunk == "") && precOk pb id hunk ls

/-- The tail of `read_halfdiff` from an arbitrary loop state. -/
def readRest (pb : PatchBuilder) (s : RState) (input : List String) :
    Option (Except String String) :=
  match runLines pb s input with
  | none => none
  | some (.error e) => some (.error e)
  | some (.ok s') =>
    match dump_hunk pb.raw_hunks s'.la s'.ha with
    | none => none
    | some (_, ha1) => some (.ok (ha1.dumpPatch s'.patch).1)

theorem read_halfdiff_eq_readRest (pb : PatchBuilder) (input : List String) :
    read_halfdiff pb input = readRest pb initRState input := rfl

theorem dump_hunk_some_of_flushOk {orig : List ((Nat × Nat) × List String)}
    {la : LineAcc} (h : flushOk orig la.id la.hunk = true) (ha : HunkAcc) :
    ∃ la1 ha1, dump_hunk orig la ha = some (la1, ha1) ∧
      la1.id = la.id ∧ la1.hunk = "" := by
  unfold flushOk at h
  cases hie : la.isEmpty with
  | true => exact ⟨_, _, dump_hunk_of_isEmpty hie, rfl, rfl⟩
  | false =>
    have hie' : (la.id == 0 || la.hunk == "") = false := hie
    rw [hie'] at h
    simp only [Bool.false_or] at h
    cases hp : parseUsize (takeUntilComma la.hunk) with
    | none => simp only [hp] at h; exact absurd h (by simp)
    | some pos =>
      simp only [hp] at h
      cases hl : lookupHunk orig (la.id, pos) with
      | none =>
        simp only [hl, Option.isSome_none] at h
        exact absurd h (by simp)
      | some olines =>
        cases he : is_edited olines la.buf with
        | false => exact ⟨_, _, dump_hunk_not_edited hie hp hl he, rfl, rfl⟩
        | true => exact ⟨_, _, dump_hunk_edited hie hp hl he, rfl, rfl⟩

theorem readRest_cons_ok {pb : PatchBuilder} {s : RState} {l : String}
    {ls : List String} {s' : RState} (hstep : stepLine pb s l = some (.ok s')) :
    readRest pb s (l :: ls) = readRest pb s' ls := by
  simp only [readRest, runLines, hstep]

theorem readRest_cons_err {pb : PatchBuilder} {s : RState} {l : String}
    {ls : List String} {e : String} (hstep : stepLine pb s l = some (.error e)) :
    readRest pb s (l :: ls) = some (.error e) := by
  simp only [readRest, runLines, hstep]

/-- Totality of the parse loop under `precOk`. -/
theorem readRest_ne_none (pb : PatchBuilder) :
    ∀ (input : List String) (s : RState),
      precOk pb s.la.id s.la.hunk input = true →
      readRest pb s input ≠ none := by
  intro input
  induction input with
  | nil =>
    intro s hprec
    obtain ⟨la1, ha1, hd, _, _⟩ :=
      @dump_hunk_some_of_flushOk pb.raw_hunks s.la hprec s.ha
    simp [readRest, runLines, hd]
  | cons l ls ih =>
    intro s hprec
    cases hH : startsWithStr pb.header_marker l with
    | true =>
      simp only [precOk, hH, if_true, Bool.and_eq_true] at hprec
      obtain ⟨la1, ha1, hd, hid, hhunk⟩ :=
        @dump_hunk_some_of_flushOk pb.raw_hunks s.la hprec.1 s.ha
      have hstep : stepLine pb s l =
          (match lookupFile pb.files (trimStr (dropStr l (strLen pb.header_marker))) with
           | none => some (.error "UnknownFile")
           | some id => some (.ok { patch := (ha1.dumpPatch s.patch).1
                                    ha := HunkAcc.openNewPatch
                                      (trimStr (dropStr l (strLen pb.header_marker)))
                                    la := { la1 with id := id } })) := by
        simp only [stepLine, hH, if_true, hd]
      cases hlook : lookupFile pb.files (trimStr (dropStr l (strLen pb.header_marker))) with
      | none =>
        simp only [hlook] at hstep
        rw [readRest_cons_err hstep]
        simp
      | some id2 =>
        simp only [hlook] at hstep
        rw [readRest_cons_ok hstep]
        apply ih
        simp only [hlook] at hprec
        simpa [hhunk] using hprec.2
    | false =>
      cases hQ : startsWithStr pb.hunk_marker l with
      | true =>
        simp only [precOk, hH, hQ, Bool.false_eq_true, if_false, if_true,
          Bool.and_eq_true] at hprec
        obtain ⟨la1, ha1, hd, hid, hhunk⟩ :=
          @dump_hunk_some_of_flushOk pb.raw_hunks s.la hprec.1 s.ha
        have hstep : stepLine pb s l = some (.ok { s with
            ha := ha1
            la := la1.openNewHunk (trimStr (dropStr l (strLen pb.hunk_marker))) }) := by
          simp only [stepLine, hH, hQ, Bool.false_eq_true, if_false, if_true, hd]
        rw [readRest_cons_ok hstep]
        apply ih
        simpa [LineAcc.openNewHunk, hid] using hprec.2
      | false =>
        simp only [precOk, hH, hQ, Bool.false_eq_true, if_false,
          Bool.and_eq_true] at hprec
        have hie : s.la.isEmpty = false := by
          have := hprec.1
          simp only [Bool.not_eq_true'] at this
          exact this
        have hstep : stepLine pb s l = some (.ok { s with
            la := { s.la with
                    buf := s.la.buf ++ [l]
                    edited_len := s.la.edited_len + 1 } }) := by
          simp only [stepLine, hH, hQ, Bool.false_eq_true, if_false, hie]
        rw [readRest_cons_ok hstep]
        apply ih
        simpa using hprec.2

/-- C10: `read_halfdiff` returns `Ok` or `Err` (does not panic) on every
input satisfying the precondition that each hunk coordinate parses and names
a stored hunk and each body line follows a marker; on inputs violating the
precondition it can panic (`none`): a body line before any marker trips the
`push_line` assertion, a hunk line naming an unknown coordinate trips the
`.get(..).unwrap()`, and an unparseable coordinate trips `parse().unwrap()`. -/
theorem C10_read_halfdiff_totality :
    (∀ (pb : PatchBuilder) (input : List String),
        precOk pb 0 "" input = true → read_halfdiff pb input ≠ none) ∧
    read_halfdiff pbS1 ["  fox"] = none ∧
    read_halfdiff pbS1 ["+++ a.txt", "@@ 9,1"] = none ∧
    read_halfdiff pbS1 ["+++ a.txt", "@@ x2,1", "  cat"] = none := by
  refine ⟨?_, by rfl, by rfl, by rfl⟩
  intro pb input hprec
  rw [read_halfdiff_eq_readRest]
  exact readRest_ne_none pb input initRState hprec

/-- C10 witness: the precondition-bearing part applied at the S1 builder. -/
theorem C10_witness :
    read_halfdiff pbS1 ["+++ a.txt", "@@ 2,1", "  cat"] ≠ none :=
  C10_read_halfdiff_totality.1 pbS1 ["+++ a.txt", "@@ 2,1", "  cat"] (by rfl)

end Ge

namespace Ge

/-! ## Claim C6 — invariants of the algebra -/

/-- Hits sorted by `(files[file_id], from)`. -/
def sortedHits (files : List String) (hits : List GrepHit) : Prop :=
  hits.Pairwise (keyLe files)

/-- Every hit spans at least one line. -/
def posLines (hits : List GrepHit) : Prop := ∀ h ∈ hits, 1 ≤ h.n_lines

/-- Every `file_id` indexes the file table. -/
def validIds (files : List String) (hits : List GrepHit) : Prop :=
  ∀ h ∈ hits, h.file_id < files.length

/-- The file table is strictly ascending. -/
def filesSorted (files : List String) : Prop :=
  files.Pairwise (fun a b => strOrdKey a < strOrdKey b)

theorem fileOf_congr {files : List String} {a b : GrepHit}
    (hf : a.file_id = b.file_id) : fileOf files a = fileOf files b := by
  simp [fileOf, hf]

theorem keyLe_same_file {files : List String} {a b : GrepHit}
    (hf : a.file_id = b.file_id) (h : keyLe files a b) : a.from_ ≤ b.from_ := by
  rcases (Prod.Lex.le_iff _ _).mp h with hlt | ⟨_, hle⟩
  · rw [fileOf_congr hf] at hlt
    exact absurd hlt (lt_irrefl _)
  · exact hle

theorem getD_strict_mono {files : List String} (hfs : filesSorted files)
    {i j : Nat} (hij : i < j) (hj : j < files.length) :
    strOrdKey (files.getD i "") < strOrdKey (files.getD j "") := by
  have hi : i < files.length := lt_trans hij hj
  rw [List.getD_eq_getElem files "" hi, List.getD_eq_getElem files "" hj]
  exact List.pairwise_iff_get.mp hfs ⟨i, hi⟩ ⟨j, hj⟩ hij

/-- `filter_files` keeps a sub-list of the hits. -/
theorem filter_files_inv (g sec : GrepResult) (invert : Bool)
    (hs : sortedHits g.files g.hits) (hp : posLines g.hits) :
    sortedHits (filter_files g sec invert).files (filter_files g sec invert).hits ∧
      posLines (filter_files g sec invert).hits := by
  constructor
  · exact hs.sublist (List.filter_sublist g.hits)
  · intro h hh
    exact hp h ((List.filter_sublist g.hits).subset hh)

/-- `collect_head` sorted/positive output. -/
theorem collect_head_inv (g : GrepResult) (n : Nat)
    (hfs : filesSorted g.files) (hids : validIds g.files g.hits) :
    sortedHits (collect_head g n).files (collect_head g n).hits ∧
      (1 ≤ n → posLines (collect_head g n).hits) := by
  set M := g.hits.map (fun h => { h with from_ := 0, n_lines := n }) with hMdef
  have hidsM : validIds g.files M := by
    intro h hh
    rw [hMdef] at hh
    obtain ⟨h0, hh0, rfl⟩ := List.mem_map.mp hh
    exact hids h0 hh0
  have hhits : (collect_head g n).hits = dedupAdj (sortByKey hitLexKey M) := rfl
  have hfiles : (collect_head g n).files = g.files := rfl
  have hperm := sortByKey_perm hitLexKey M
  have hsorted : (sortByKey hitLexKey M).Pairwise (keyLe g.files) := by
    refine List.Pairwise.imp_of_mem ?_ (sortByKey_sorted hitLexKey M)
    intro a b ha hb hab
    have hax : a.file_id < g.files.length := hidsM a (hperm.subset ha)
    have hbx : b.file_id < g.files.length := hidsM b (hperm.subset hb)
    have hfid : a.file_id < b.file_id ∨ (a.file_id = b.file_id ∧ a.from_ ≤ b.from_) := by
      rcases (Prod.Lex.le_iff _ _).mp hab with hlt | ⟨heq, hinner⟩
      · exact Or.inl hlt
      · rcases (Prod.Lex.le_iff _ _).mp hinner with hlt2 | ⟨heq2, _⟩
        · exact Or.inr ⟨heq, le_of_lt hlt2⟩
        · exact Or.inr ⟨heq, le_of_eq heq2⟩
    rw [keyLe, hitOrdKey, hitOrdKey, Prod.Lex.le_iff]
    rcases hfid with hlt | ⟨heq, hle⟩
    · exact Or.inl (getD_strict_mono hfs hlt hbx)
    · exact Or.inr ⟨by rw [fileOf_congr heq], hle⟩
  rw [hhits, hfiles]
  constructor
  · exact hsorted.sublist (dedupAdj_sublist _)
  · intro hn h hh
    have : h ∈ M := hperm.subset ((dedupAdj_sublist _).subset hh)
    rw [hMdef] at this
    obtain ⟨h0, _, rfl⟩ := List.mem_map.mp this
    exact hn

/-- `etSkip` returns a subset of its input. -/
theorem etSkip_subset {sf tf : List String} {h : GrepHit} :
    ∀ l : List GrepHit, ∀ x ∈ etSkip sf tf h l, x ∈ l
  | [], x, hx => by simp [etSkip] at hx
  | y :: ys, x, hx => by
    rw [etSkip] at hx
    by_cases hc : etCond sf tf h y = true
    · rwa [if_pos hc] at hx
    · rw [if_neg hc] at hx
      exact List.mem_cons_of_mem _ (etSkip_subset ys x hx)

/-- The head of a non-empty `etSkip` result satisfies the break condition. -/
theorem etSkip_head_cond {sf tf : List String} {h : GrepHit} :
    ∀ {l x : _} {xs : List GrepHit}, etSkip sf tf h l = x :: xs →
      etCond sf tf h x = true := by
  intro l
  induction l with
  | nil => intro x xs hx; simp [etSkip] at hx
  | cons y ys ih =>
    intro x xs hx
    rw [etSkip] at hx
    by_cases hc : etCond sf tf h y = true
    · rw [if_pos hc] at hx
      cases hx
      exact hc
    · rw [if_neg hc] at hx
      exact ih hx

theorem etGo_nil_skip {sf tf : List String} {h : GrepHit} {hs toHits : List GrepHit}
    (hskip : etSkip sf tf h toHits = []) :
    etGo sf tf (h :: hs) toHits = h :: hs := by
  rw [etGo, hskip]

theorem etGo_cons_eq {sf tf : List String} {h : GrepHit} {hs toHits : List GrepHit}
    {x : GrepHit} {xs : List GrepHit} (hskip : etSkip sf tf h toHits = x :: xs) :
    etGo sf tf (h :: hs) toHits =
      if fileOf tf x != fileOf sf h then h :: etGo sf tf hs (x :: xs)
      else { h with n_lines := x.from_ + x.n_lines - h.from_ } :: etGo sf tf hs xs := by
  rw [etGo, hskip]

/-- `etGo` preserves the `(file_id, from)` projection of the primary hits. -/
theorem etGo_map_proj (sf tf : List String) :
    ∀ (hits toHits : List GrepHit),
      (etGo sf tf hits toHits).map (fun h => (h.file_id, h.from_)) =
        hits.map (fun h => (h.file_id, h.from_))
  | [], _ => rfl
  | h :: hs, toHits => by
    cases hskip : etSkip sf tf h toHits with
    | nil => rw [etGo_nil_skip hskip]
    | cons x xs =>
      rw [etGo_cons_eq hskip]
      by_cases hf : (fileOf tf x != fileOf sf h) = true
      · rw [if_pos hf]
        simp only [List.map_cons, etGo_map_proj sf tf hs (x :: xs)]
      · rw [if_neg hf]
        simp only [List.map_cons, etGo_map_proj sf tf hs xs]

/-- `etGo` output stays sorted (the keys are untouched). -/
theorem etGo_sorted {sf tf : List String} {hits toHits : List GrepHit}
    (hs : sortedHits sf hits) : sortedHits sf (etGo sf tf hits toHits) := by
  have hproj := etGo_map_proj sf tf hits toHits
  have key : ∀ l : List GrepHit, sortedHits sf l ↔
      (l.map (fun h => (h.file_id, h.from_))).Pairwise
        (fun a b => (toLex (strOrdKey (sf.getD a.1 ""), a.2) : (List ℕ) ×ₗ ℕ) ≤
          toLex (strOrdKey (sf.getD b.1 ""), b.2)) := by
    intro l
    rw [sortedHits, List.pairwise_map]
    rfl
  rw [key] at hs ⊢
  rwa [hproj]

/-- `etGo` output keeps `n_lines ≥ 1`. -/
theorem etGo_pos {sf tf : List String} :
    ∀ (hits toHits : List GrepHit), posLines hits → posLines toHits →
      posLines (etGo sf tf hits toHits)
  | [], _, _, _ => by intro h hh; simp [etGo] at hh
  | h :: hs, toHits, hp, hq => by
    intro y hy
    cases hskip : etSkip sf tf h toHits with
    | nil =>
      rw [etGo_nil_skip hskip] at hy
      exact hp y hy
    | cons x xs =>
      rw [etGo_cons_eq hskip] at hy
      have hxmem : x ∈ toHits := etSkip_subset toHits x (hskip ▸ List.mem_cons_self x xs)
      have hsub : ∀ z ∈ x :: xs, z ∈ toHits := by
        intro z hz
        exact etSkip_subset toHits z (hskip ▸ hz)
      by_cases hf : (fileOf tf x != fileOf sf h) = true
      · rw [if_pos hf] at hy
        rcases List.mem_cons.mp hy with rfl | hy'
        · exact hp y (List.mem_cons_self _ _)
        · exact etGo_pos hs (x :: xs) (fun z hz => hp z (List.mem_cons_of_mem _ hz))
            (fun z hz => hq z (hsub z hz)) y hy'
      · rw [if_neg hf] at hy
        rcases List.mem_cons.mp hy with rfl | hy'
        · have hcond := etSkip_head_cond hskip
          have hfe : fileOf tf x = fileOf sf h := by
            simpa using hf
          have hle : toLex (strOrdKey (fileOf sf h), h.from_) ≤
              toLex (strOrdKey (fileOf tf x), x.from_) :=
            (pairLeB_eq_true_iff (hitKey sf h) (hitKey tf x)).mp
              ((Bool.and_eq_true _ _).mp hcond).1
          have hfrom : h.from_ ≤ x.from_ := by
            rcases (Prod.Lex.le_iff _ _).mp hle with hlt | ⟨_, hle2⟩
            · rw [hfe] at hlt
              exact absurd hlt (lt_irrefl _)
            · exact hle2
          have hx1 : 1 ≤ x.n_lines := hq x hxmem
          simp only
          omega
        · exact etGo_pos hs xs (fun z hz => hp z (List.mem_cons_of_mem _ hz))
            (fun z hz => hq z (hsub z (List.mem_cons_of_mem _ hz))) y hy'

end Ge

namespace Ge

theorem extend_by_lines_inv (g : GrepResult) (up down : Nat)
    (hs : sortedHits g.files g.hits) (hp : posLines g.hits) :
    sortedHits (extend_by_lines g up down).files (extend_by_lines g up down).hits ∧
      posLines (extend_by_lines g up down).hits := by
  constructor
  · refine List.pairwise_map.mpr (hs.imp ?_)
    intro a b hab
    rw [keyLe, hitOrdKey, hitOrdKey, Prod.Lex.le_iff] at hab ⊢
    rcases hab with hlt | ⟨heq, hle⟩
    · exact Or.inl hlt
    · exact Or.inr ⟨heq, Nat.sub_le_sub_right hle up⟩
  · intro y hy
    obtain ⟨h, hh, rfl⟩ := List.mem_map.mp hy
    have := hp h hh
    simp only
    omega

theorem foGo_proj_sublist :
    ∀ (xs : List GrepHit) (cur : GrepHit),
      List.Sublist ((foGo cur xs).map (fun h => (h.file_id, h.from_)))
        ((cur :: xs).map (fun h => (h.file_id, h.from_)))
  | [], _ => List.Sublist.refl _
  | x :: xs, cur => by
    rw [foGo]
    by_cases hc : (cur.file_id == x.file_id && decide (x.from_ ≤ cur.from_ + cur.n_lines)) = true
    · rw [if_pos hc]
      refine List.Sublist.trans
        (foGo_proj_sublist xs { cur with n_lines := x.from_ + x.n_lines - cur.from_ }) ?_
      simp only [List.map_cons]
      exact List.Sublist.cons₂ _ (List.Sublist.cons _ (List.Sublist.refl _))
    · rw [if_neg hc]
      simp only [List.map_cons]
      exact List.Sublist.cons₂ _ (foGo_proj_sublist xs x)

theorem foGo_sorted {files : List String} {cur : GrepHit} {xs : List GrepHit}
    (hs : (cur :: xs).Pairwise (keyLe files)) :
    (foGo cur xs).Pairwise (keyLe files) := by
  have key : ∀ l : List GrepHit, l.Pairwise (keyLe files) ↔
      (l.map (fun h => (h.file_id, h.from_))).Pairwise
        (fun a b => (toLex (strOrdKey (files.getD a.1 ""), a.2) : (List ℕ) ×ₗ ℕ) ≤
          toLex (strOrdKey (files.getD b.1 ""), b.2)) := by
    intro l
    rw [List.pairwise_map]
    rfl
  rw [key] at hs ⊢
  exact hs.sublist (foGo_proj_sublist xs cur)

theorem foGo_pos {files : List String} :
    ∀ (xs : List GrepHit) (cur : GrepHit),
      (∀ y ∈ xs, keyLe files cur y) → xs.Pairwise (keyLe files) →
      1 ≤ cur.n_lines → posLines xs → posLines (foGo cur xs)
  | [], cur, _, _, hcur1, _ => by
    intro y hy
    rw [foGo] at hy
    rcases List.mem_cons.mp hy with rfl | hy'
    · exact hcur1
    · simp at hy'
  | x :: xs, cur, hcur, hpw, hcur1, hpx => by
    obtain ⟨hx, hxs⟩ := List.pairwise_cons.mp hpw
    intro y hy
    rw [foGo] at hy
    by_cases hc : (cur.file_id == x.file_id && decide (x.from_ ≤ cur.from_ + cur.n_lines)) = true
    · rw [if_pos hc] at hy
      have hfid : cur.file_id = x.file_id := beq_iff_eq.mp ((Bool.and_eq_true _ _).mp hc).1
      have hfrom : cur.from_ ≤ x.from_ :=
        keyLe_same_file hfid (hcur x (List.mem_cons_self _ _))
      have hx1 : 1 ≤ x.n_lines := hpx x (List.mem_cons_self _ _)
      refine foGo_pos xs { cur with n_lines := x.from_ + x.n_lines - cur.from_ }
        ?_ hxs (by simp only; omega) (fun z hz => hpx z (List.mem_cons_of_mem _ hz)) y hy
      intro z hz
      exact hcur z (List.mem_cons_of_mem _ hz)
    · rw [if_neg hc] at hy
      rcases List.mem_cons.mp hy with rfl | hy'
      · exact hcur1
      · exact foGo_pos xs x hx hxs (hpx x (List.mem_cons_self _ _))
          (fun z hz => hpx z (List.mem_cons_of_mem _ hz)) y hy'

theorem filter_overlaps_inv (g : GrepResult)
    (hs : sortedHits g.files g.hits) (hp : posLines g.hits) :
    sortedHits (filter_overlaps g).files (filter_overlaps g).hits ∧
      posLines (filter_overlaps g).hits := by
  cases hg : g.hits with
  | nil =>
    constructor
    · simp [filter_overlaps, hg, sortedHits]
    · intro y hy
      simp [filter_overlaps, hg] at hy
  | cons h t =>
    have hs' : (h :: t).Pairwise (keyLe g.files) := hg ▸ hs
    obtain ⟨hh, ht⟩ := List.pairwise_cons.mp hs'
    have hhits : (filter_overlaps g).hits = foGo h t := by
      simp [filter_overlaps, hg]
    have hfiles : (filter_overlaps g).files = g.files := rfl
    rw [hhits, hfiles]
    constructor
    · exact foGo_sorted hs'
    · exact foGo_pos t h hh ht (hp h (hg ▸ List.mem_cons_self _ _))
        (fun z hz => hp z (hg ▸ List.mem_cons_of_mem _ hz))

theorem extend_to_another_inv (g sec : GrepResult)
    (hs : sortedHits g.files g.hits) (hp : posLines g.hits)
    (hq : posLines sec.hits) :
    sortedHits (extend_to_another g sec).files (extend_to_another g sec).hits ∧
      posLines (extend_to_another g sec).hits :=
  ⟨etGo_sorted hs, etGo_pos g.hits sec.hits hp hq⟩

/-- C6: each algebra operator, applied to a `GrepResult` with an ascending
file table, valid ids and hits sorted by `(files[file_id], from)` with
`n_lines ≥ 1` (plus, for `extend_to_another`, a secondary whose hits span at
least one line), yields hits still sorted by `(files[file_id], from)` with
`n_lines ≥ 1` — except that `collect_head n` guarantees `n_lines ≥ 1` only
when `n ≥ 1` (so not immediately after `collect_head 0`). -/
theorem C6_algebra_invariants :
    (∀ (g sec : GrepResult) (invert : Bool),
        sortedHits g.files g.hits → posLines g.hits →
        sortedHits (filter_files g sec invert).files (filter_files g sec invert).hits ∧
          posLines (filter_files g sec invert).hits) ∧
    (∀ (g : GrepResult) (n : Nat),
        filesSorted g.files → validIds g.files g.hits →
        sortedHits (collect_head g n).files (collect_head g n).hits ∧
          (1 ≤ n → posLines (collect_head g n).hits)) ∧
    (∀ (g sec : GrepResult),
        sortedHits g.files g.hits → posLines g.hits → posLines sec.hits →
        sortedHits (extend_to_another g sec).files (extend_to_another g sec).hits ∧
          posLines (extend_to_another g sec).hits) ∧
    (∀ (g : GrepResult) (up down : Nat),
        sortedHits g.files g.hits → posLines g.hits →
        sortedHits (extend_by_lines g up down).files (extend_by_lines g up down).hits ∧
          posLines (extend_by_lines g up down).hits) ∧
    (∀ g : GrepResult,
        sortedHits g.files g.hits → posLines g.hits →
        sortedHits (filter_overlaps g).files (filter_overlaps g).hits ∧
          posLines (filter_overlaps g).hits) :=
  ⟨filter_files_inv, collect_head_inv, extend_to_another_inv,
    extend_by_lines_inv, filter_overlaps_inv⟩

/-- The concrete sorted two-file result used by the C6 witness. -/
def gC6 : GrepResult := ⟨["a", "b"], [⟨0, 2, 1, 0⟩, ⟨1, 4, 2, 0⟩]⟩

/-- C6 witness: all five operators applied to a concrete sorted two-file
result. -/
theorem C6_witness :
    (sortedHits (filter_files gC6 ⟨["b"], []⟩ false).files
        (filter_files gC6 ⟨["b"], []⟩ false).hits ∧
      posLines (filter_files gC6 ⟨["b"], []⟩ false).hits) ∧
    (sortedHits (collect_head gC6 3).files (collect_head gC6 3).hits ∧
      posLines (collect_head gC6 3).hits) ∧
    (sortedHits (extend_to_another gC6 ⟨["a"], [⟨0, 6, 1, 0⟩]⟩).files
        (extend_to_another gC6 ⟨["a"], [⟨0, 6, 1, 0⟩]⟩).hits ∧
      posLines (extend_to_another gC6 ⟨["a"], [⟨0, 6, 1, 0⟩]⟩).hits) ∧
    (sortedHits (extend_by_lines gC6 3 1).files (extend_by_lines gC6 3 1).hits ∧
      posLines (extend_by_lines gC6 3 1).hits) ∧
    (sortedHits (filter_overlaps gC6).files (filter_overlaps gC6).hits ∧
      posLines (filter_overlaps gC6).hits) := by
  have hsort : sortedHits gC6.files gC6.hits := by
    show gC6.hits.Pairwise (keyLe gC6.files)
    decide
  have hpos : posLines gC6.hits := by
    intro h hh
    fin_cases hh <;> decide
  have hfs : filesSorted gC6.files := by
    show gC6.files.Pairwise (fun a b => strOrdKey a < strOrdKey b)
    decide
  have hids : validIds gC6.files gC6.hits := by
    intro h hh
    fin_cases hh <;> decide
  have hsec : posLines (⟨["a"], [⟨0, 6, 1, 0⟩]⟩ : GrepResult).hits := by
    intro h hh
    fin_cases hh <;> decide
  exact ⟨C6_algebra_invariants.1 gC6 ⟨["b"], []⟩ false hsort hpos,
    ⟨(C6_algebra_invariants.2.1 gC6 3 hfs hids).1,
      (C6_algebra_invariants.2.1 gC6 3 hfs hids).2 (by decide)⟩,
    C6_algebra_invariants.2.2.1 gC6 ⟨["a"], [⟨0, 6, 1, 0⟩]⟩ hsort hpos hsec,
    C6_algebra_invariants.2.2.2.1 gC6 3 1 hsort hpos,
    C6_algebra_invariants.2.2.2.2 gC6 hsort hpos⟩

end Ge

namespace Ge

/-! ## Claim C1 — round trip of an unedited half-diff -/

theorem startsWithStr_self_append (p x : String) :
    startsWithStr p (p ++ x) = true := by
  simp [startsWithStr, String.data_append, List.isPrefixOf_iff_prefix]

theorem dropStr_self_append (p x : String) :
    dropStr (p ++ x) (strLen p) = x := by
  cases x with
  | mk xd =>
    apply String.ext
    simp [dropStr, strLen, String.data_append, List.drop_left]

theorem string_eta (s : String) : (⟨s.data⟩ : String) = s := by
  cases s
  rfl

theorem trimStr_cons_space (l : List Char) :
    trimStr ⟨' ' :: l⟩ = trimStr ⟨l⟩ := by
  simp [trimStr, List.dropWhile_cons_of_pos, isWs]

theorem dropWhile_isWs_of_all {l : List Char} (h : ∀ c ∈ l, isWs c = false) :
    l.dropWhile isWs = l := by
  cases l with
  | nil => rfl
  | cons c t => exact List.dropWhile_cons_of_neg (by simp [h c (List.mem_cons_self _ _)])

theorem trimStr_no_ws {l : List Char} (h : ∀ c ∈ l, isWs c = false) :
    trimStr ⟨l⟩ = ⟨l⟩ := by
  have h1 : l.dropWhile isWs = l := dropWhile_isWs_of_all h
  have h2 : l.reverse.dropWhile isWs = l.reverse :=
    dropWhile_isWs_of_all (fun c hc => h c (List.mem_reverse.mp hc))
  simp [trimStr, h1, h2]

theorem digit_not_ws {c : Char} (h : isDigitCh c = true) : isWs c = false := by
  cases hw : isWs c with
  | false => rfl
  | true =>
    exfalso
    simp only [isWs, Bool.or_eq_true, beq_iff_eq] at hw
    rcases hw with ((rfl | rfl) | rfl) | rfl <;> simp [isDigitCh] at h

theorem digit_ne_comma {c : Char} (h : isDigitCh c = true) : (c != ',') = true := by
  cases hc : (c == ',') with
  | false => simp [bne, hc]
  | true =>
    exfalso
    have : c = ',' := beq_iff_eq.mp hc
    subst this
    simp [isDigitCh] at h

theorem takeWhile_append_stop {p : Char → Bool} {c0 : Char} (l r : List Char)
    (hl : ∀ c ∈ l, p c = true) (hc : p c0 = false) :
    (l ++ c0 :: r).takeWhile p = l := by
  induction l with
  | nil => simp [List.takeWhile_cons_of_neg, hc]
  | cons c t ih =>
    rw [List.cons_append, List.takeWhile_cons_of_pos (hl c (List.mem_cons_self _ _))]
    rw [ih (fun c hc' => hl c (List.mem_cons_of_mem _ hc'))]

/-- Parsing the front of the rendered `"<pos>,<len>"` coordinate recovers
`pos`. -/
theorem parse_hunk_coord {pos len : Nat} (hpos : pos < 2 ^ 64) :
    parseUsize (takeUntilComma ⟨(natStr pos).data ++ ',' :: (natStr len).data⟩) =
      some pos := by
  have htake : ((natStr pos).data ++ ',' :: (natStr len).data).takeWhile
      (fun c => c != ',') = (natStr pos).data := by
    apply takeWhile_append_stop
    · intro c hc
      exact digit_ne_comma (List.all_eq_true.mp (natStr_all_digits pos) c hc)
    · simp
  have : takeUntilComma ⟨(natStr pos).data ++ ',' :: (natStr len).data⟩ = natStr pos := by
    rw [takeUntilComma]
    rw [show (⟨(natStr pos).data ++ ',' :: (natStr len).data⟩ : String).data =
      (natStr pos).data ++ ',' :: (natStr len).data from rfl]
    rw [htake]
  rw [this]
  exact parseUsize_natStr hpos

/-- No whitespace occurs in the rendered coordinate. -/
theorem coord_no_ws {pos len : Nat} :
    ∀ c ∈ (natStr pos).data ++ ',' :: (natStr len).data, isWs c = false := by
  intro c hc
  rcases List.mem_append.mp hc with hc1 | hc2
  · exact digit_not_ws (List.all_eq_true.mp (natStr_all_digits pos) c hc1)
  · rcases List.mem_cons.mp hc2 with rfl | hc3
    · rfl
    · exact digit_not_ws (List.all_eq_true.mp (natStr_all_digits len) c hc3)

/-- Well-formedness of one file-table entry seen from a hunk key. -/
def fileWFB (pb : PatchBuilder) (id : Nat) : Bool :=
  match revLook pb.files id with
  | none => false
  | some f => (lookupFile pb.files f == some id) && (trimStr f == f)

/-- The hypotheses under which the unedited round trip is provable: unique
hunk keys; positive file ids; coordinates within `usize`; a file table
whose reverse lookup round-trips and whose names are unchanged by trimming;
body lines free of both markers (as successful construction guarantees);
and no rendered hunk line captured by the header marker. -/
def WFpb (pb : PatchBuilder) : Prop :=
  (pb.raw_hunks.map (·.1)).Nodup ∧
  ∀ kl ∈ pb.raw_hunks,
    1 ≤ kl.1.1 ∧ kl.1.2 < 2 ^ 64 ∧ fileWFB pb kl.1.1 = true ∧
    (∀ l ∈ kl.2, startsWithStr pb.header_marker l = false ∧
      startsWithStr pb.hunk_marker l = false) ∧
    startsWithStr pb.header_marker
      (hunkLineStr pb.hunk_marker kl.1.2 kl.2.length) = false

instance (pb : PatchBuilder) : Decidable (WFpb pb) := by
  unfold WFpb
  infer_instance

theorem fileWFB_spec {pb : PatchBuilder} {id : Nat} (h : fileWFB pb id = true) :
    ∃ f, revLook pb.files id = some f ∧ lookupFile pb.files f = some id ∧
      trimStr f = f := by
  unfold fileWFB at h
  cases hr : revLook pb.files id with
  | none => rw [hr] at h; exact absurd h (by simp)
  | some f =>
    rw [hr] at h
    simp only [Bool.and_eq_true, beq_iff_eq] at h
    exact ⟨f, rfl, h.1, h.2⟩

theorem lookupHunk_of_mem_nodup :
    ∀ {hs : List ((Nat × Nat) × List String)} {k : Nat × Nat} {v : List String},
      (hs.map (·.1)).Nodup → (k, v) ∈ hs → lookupHunk hs k = some v := by
  intro hs
  induction hs with
  | nil => intro k v _ hm; simp at hm
  | cons p t ih =>
    intro k v hnd hm
    have hnd' : p.1 ∉ t.map (·.1) ∧ (t.map (·.1)).Nodup :=
      List.nodup_cons.mp (by simpa using hnd)
    rcases List.mem_cons.mp hm with rfl | hmt
    · simp [lookupHunk, List.find?_cons_of_pos]
    · have hk : p.1 ≠ k := by
        intro heq
        exact hnd'.1 (heq ▸ List.mem_map.mpr ⟨(k, v), hmt, rfl⟩)
      rw [lookupHunk, List.find?_cons_of_neg _ (by simp [hk])]
      exact ih hnd'.2 hmt

end Ge

namespace Ge

/-- A line accumulator that flushes without emitting anything: it is empty,
or its coordinate resolves to original lines equal to its buffer. -/
def CleanLA (orig : List ((Nat × Nat) × List String)) (la : LineAcc) : Prop :=
  la.isEmpty = true ∨
    ∃ pos olines, parseUsize (takeUntilComma la.hunk) = some pos ∧
      lookupHunk orig (la.id, pos) = some olines ∧ is_edited olines la.buf = false

theorem dump_hunk_clean {orig : List ((Nat × Nat) × List String)} {la : LineAcc}
    (h : CleanLA orig la) (ha : HunkAcc) :
    dump_hunk orig la ha = some (la.openNewHunk "", ha) := by
  rcases h with h | ⟨pos, olines, hp, hl, he⟩
  · exact dump_hunk_of_isEmpty h
  · cases hie : la.isEmpty with
    | true => exact dump_hunk_of_isEmpty hie
    | false => exact dump_hunk_not_edited hie hp hl he

theorem runLines_append (pb : PatchBuilder) :
    ∀ (xs : List String) (s : RState) (ys : List String),
      runLines pb s (xs ++ ys) =
        match runLines pb s xs with
        | none => none
        | some (.error e) => some (.error e)
        | some (.ok s') => runLines pb s' ys
  | [], s, ys => rfl
  | x :: xs, s, ys => by
    rw [List.cons_append, runLines, runLines]
    cases stepLine pb s x with
    | none => rfl
    | some r =>
      cases r with
      | error e => rfl
      | ok s' => exact runLines_append pb xs s' ys

theorem HunkAcc.openNewPatch_isEmpty (f : String) :
    (HunkAcc.openNewPatch f).isEmpty = true := by
  simp [HunkAcc.openNewPatch, HunkAcc.isEmpty]

/-- Running a block of marker-free body lines just extends the buffer. -/
theorem runLines_body (pb : PatchBuilder) :
    ∀ (body : List String) (s : RState),
      (∀ l ∈ body, startsWithStr pb.header_marker l = false ∧
        startsWithStr pb.hunk_marker l = false) →
      s.la.isEmpty = false →
      runLines pb s body = some (.ok { s with la := { s.la with
        buf := s.la.buf ++ body
        edited_len := s.la.edited_len + body.length } })
  | [], s, _, _ => by
    rw [runLines]
    cases s with
    | mk patch ha la =>
      cases la
      simp
  | l :: body, s, hmk, hie => by
    have hl := hmk l (List.mem_cons_self _ _)
    have hstep : stepLine pb s l = some (.ok { s with la := { s.la with
        buf := s.la.buf ++ [l]
        edited_len := s.la.edited_len + 1 } }) := by
      simp only [stepLine, hl.1, hl.2, Bool.false_eq_true, if_false, hie]
    rw [runLines, hstep]
    show runLines pb { s with la := { s.la with
      buf := s.la.buf ++ [l]
      edited_len := s.la.edited_len + 1 } } body = _
    rw [runLines_body pb body { s with la := { s.la with
      buf := s.la.buf ++ [l]
      edited_len := s.la.edited_len + 1 } }
      (fun x hx => hmk x (List.mem_cons_of_mem _ hx)) hie]
    have harr : (s.la.buf ++ [l]) ++ body = s.la.buf ++ l :: body := by simp
    have hlen : s.la.edited_len + 1 + body.length =
        s.la.edited_len + (l :: body).length := by
      simp only [List.length_cons]
      omega
    simp only at harr hlen ⊢
    rw [harr, hlen]

end Ge

namespace Ge

theorem step_header (pb : PatchBuilder) {s : RState} {f : String} {id : Nat}
    (hclean : CleanLA pb.raw_hunks s.la) (hha : s.ha.isEmpty = true)
    (htrim : trimStr f = f) (hlook : lookupFile pb.files f = some id) :
    stepLine pb s (headerLineStr pb.header_marker f) =
      some (.ok { patch := s.patch
                  ha := HunkAcc.openNewPatch f
                  la := { s.la.openNewHunk "" with id := id } }) := by
  have hassoc : headerLineStr pb.header_marker f = pb.header_marker ++ (" " ++ f) := by
    rw [headerLineStr, String.append_assoc]
  have hsw : startsWithStr pb.header_marker (headerLineStr pb.header_marker f) = true := by
    rw [hassoc]
    exact startsWithStr_self_append _ _
  have hdrop : dropStr (headerLineStr pb.header_marker f) (strLen pb.header_marker) =
      " " ++ f := by
    rw [hassoc, dropStr_self_append]
  have hspace : (" " ++ f) = (⟨' ' :: f.data⟩ : String) :=
    String.ext (by simp [String.data_append])
  have htrim2 : trimStr (" " ++ f) = f := by
    rw [hspace, trimStr_cons_space, string_eta, htrim]
  have hdp : s.ha.dumpPatch s.patch = (s.patch, s.ha) := by
    rw [HunkAcc.dumpPatch, if_pos hha]
  simp only [stepLine, hsw, if_true, dump_hunk_clean hclean, hdp, hdrop, htrim2, hlook]

theorem step_hunkline (pb : PatchBuilder) {s : RState} {pos len : Nat}
    (hclean : CleanLA pb.raw_hunks s.la)
    (hnothdr : startsWithStr pb.header_marker
      (hunkLineStr pb.hunk_marker pos len) = false) :
    stepLine pb s (hunkLineStr pb.hunk_marker pos len) =
      some (.ok { s with
        la := s.la.openNewHunk ⟨(natStr pos).data ++ ',' :: (natStr len).data⟩ }) := by
  have hassoc : hunkLineStr pb.hunk_marker pos len =
      pb.hunk_marker ++ (" " ++ (natStr pos ++ ("," ++ natStr len))) := by
    rw [hunkLineStr]
    rw [String.append_assoc, String.append_assoc, String.append_assoc]
  have hsw : startsWithStr pb.hunk_marker (hunkLineStr pb.hunk_marker pos len) = true := by
    rw [hassoc]
    exact startsWithStr_self_append _ _
  have hdrop : dropStr (hunkLineStr pb.hunk_marker pos len) (strLen pb.hunk_marker) =
      " " ++ (natStr pos ++ ("," ++ natStr len)) := by
    rw [hassoc, dropStr_self_append]
  have hdata : (" " ++ (natStr pos ++ ("," ++ natStr len))) =
      (⟨' ' :: ((natStr pos).data ++ ',' :: (natStr len).data)⟩ : String) := by
    apply String.ext
    simp only [String.data_append]
    rfl
  have htrim2 : trimStr (" " ++ (natStr pos ++ ("," ++ natStr len))) =
      (⟨(natStr pos).data ++ ',' :: (natStr len).data⟩ : String) := by
    rw [hdata, trimStr_cons_space]
    exact trimStr_no_ws coord_no_ws
  simp only [stepLine, hnothdr, Bool.false_eq_true, if_false, hsw, if_true,
    dump_hunk_clean hclean, hdrop, htrim2]
  rfl

/-- The coordinate string rendered on a hunk line is non-empty. -/
theorem coordStr_ne_empty (pos len : Nat) :
    ((⟨(natStr pos).data ++ ',' :: (natStr len).data⟩ : String) == "") = false := by
  cases hd : (natStr pos).data with
  | nil => exact absurd hd (natStr_ne_nil pos)
  | cons c t =>
    apply beq_eq_false_iff_ne.mpr
    intro hcontra
    have := congrArg String.data hcontra
    simp at this

theorem runLines_cons_ok {pb : PatchBuilder} {s : RState} {l : String}
    {ls : List String} {s1 : RState} (hstep : stepLine pb s l = some (.ok s1)) :
    runLines pb s (l :: ls) = runLines pb s1 ls := by
  rw [runLines, hstep]

theorem writeGo_cons_new (pb : PatchBuilder) {prev_id id pos : Nat}
    {ks : List (Nat × Nat)} {f : String} {lines : List String}
    (hne : (prev_id != id) = true) (hrev : revLook pb.files id = some f)
    (hlook : lookupHunk pb.raw_hunks (id, pos) = some lines) :
    writeGo pb prev_id ((id, pos) :: ks) =
      (writeGo pb id ks).map (fun rest =>
        headerLineStr pb.header_marker f ::
          hunkLineStr pb.hunk_marker pos lines.length :: (lines ++ rest)) := by
  rw [writeGo, if_pos hne, hrev, hlook]
  rfl

theorem writeGo_cons_same (pb : PatchBuilder) {prev_id id pos : Nat}
    {ks : List (Nat × Nat)} {lines : List String}
    (hne : (prev_id != id) = false)
    (hlook : lookupHunk pb.raw_hunks (id, pos) = some lines) :
    writeGo pb prev_id ((id, pos) :: ks) =
      (writeGo pb id ks).map (fun rest =>
        hunkLineStr pb.hunk_marker pos lines.length :: (lines ++ rest)) := by
  rw [writeGo, if_neg (by simp [hne]), hlook]
  rfl

/-- Processing the rendered blocks of the sorted keys from a clean state
returns a clean state with the accumulated patch unchanged. -/
theorem runKeys (pb : PatchBuilder) (hWF : WFpb pb) :
    ∀ (ks : List (Nat × Nat)) (prev_id : Nat) (s : RState) (out : List String),
      (∀ k ∈ ks, k ∈ pb.raw_hunks.map (·.1)) →
      writeGo pb prev_id ks = some out →
      s.la.id = prev_id →
      CleanLA pb.raw_hunks s.la →
      s.ha.isEmpty = true →
      ∃ s', runLines pb s out = some (.ok s') ∧
        s'.patch = s.patch ∧ s'.ha.isEmpty = true ∧ CleanLA pb.raw_hunks s'.la
  | [], prev_id, s, out, _, hw, _, hclean, hha => by
    rw [writeGo] at hw
    have hout : out = [] := by
      cases hw
      rfl
    subst hout
    exact ⟨s, rfl, rfl, hha, hclean⟩
  | (id, pos) :: ks, prev_id, s, out, hmem, hw, hsid, hclean, hha => by
    have hkmem : (id, pos) ∈ pb.raw_hunks.map (·.1) := hmem _ (List.mem_cons_self _ _)
    obtain ⟨kl, hklmem, hkl⟩ := List.mem_map.mp hkmem
    obtain ⟨hid1, hpos, hfwf, hbody, hmrk⟩ := hWF.2 kl hklmem
    simp only [hkl] at hid1 hpos hfwf hmrk
    have hklpair : ((id, pos), kl.2) ∈ pb.raw_hunks := by
      have heta : (kl.1, kl.2) = kl := rfl
      rw [hkl] at heta
      rw [heta]
      exact hklmem
    have hlookup : lookupHunk pb.raw_hunks (id, pos) = some kl.2 :=
      lookupHunk_of_mem_nodup hWF.1 hklpair
    obtain ⟨f, hrev, hflook, hftrim⟩ := fileWFB_spec hfwf
    by_cases hpe : (prev_id != id) = true
    · rw [writeGo_cons_new pb hpe hrev hlookup] at hw
      cases hwg : writeGo pb id ks with
      | none => rw [hwg] at hw; exact absurd hw (by simp)
      | some rest =>
        rw [hwg] at hw
        simp only [Option.map_some', Option.some.injEq] at hw
        subst hw
        have hstep1 : stepLine pb s (headerLineStr pb.header_marker f) =
            some (.ok ⟨s.patch, HunkAcc.openNewPatch f, ⟨id, "", [], 0, s.la.pos_diff⟩⟩) :=
          step_header pb hclean hha hftrim hflook
        have hclean1 : CleanLA pb.raw_hunks
            (⟨id, "", [], 0, s.la.pos_diff⟩ : LineAcc) := by
          left
          simp [LineAcc.isEmpty]
        have hstep2 : stepLine pb
            (⟨s.patch, HunkAcc.openNewPatch f, ⟨id, "", [], 0, s.la.pos_diff⟩⟩ : RState)
            (hunkLineStr pb.hunk_marker pos kl.2.length) =
            some (.ok ⟨s.patch, HunkAcc.openNewPatch f,
              ⟨id, ⟨(natStr pos).data ++ ',' :: (natStr kl.2.length).data⟩,
                [], 0, s.la.pos_diff⟩⟩) :=
          step_hunkline pb hclean1 hmrk
        have hie2 : ((⟨id, ⟨(natStr pos).data ++ ',' :: (natStr kl.2.length).data⟩,
            [], 0, s.la.pos_diff⟩ : LineAcc)).isEmpty = false := by
          simp only [LineAcc.isEmpty, Bool.or_eq_false_iff]
          exact ⟨beq_eq_false_iff_ne.mpr (by omega), coordStr_ne_empty pos kl.2.length⟩
        have hbodyrun : runLines pb
            (⟨s.patch, HunkAcc.openNewPatch f,
              ⟨id, ⟨(natStr pos).data ++ ',' :: (natStr kl.2.length).data⟩,
                [], 0, s.la.pos_diff⟩⟩ : RState) kl.2 =
            some (.ok ⟨s.patch, HunkAcc.openNewPatch f,
              ⟨id, ⟨(natStr pos).data ++ ',' :: (natStr kl.2.length).data⟩,
                kl.2, 0 + kl.2.length, s.la.pos_diff⟩⟩) :=
          runLines_body pb kl.2 _ (fun l hl => hbody l hl) hie2
        have happ : runLines pb
            (⟨s.patch, HunkAcc.openNewPatch f,
              ⟨id, ⟨(natStr pos).data ++ ',' :: (natStr kl.2.length).data⟩,
                [], 0, s.la.pos_diff⟩⟩ : RState) (kl.2 ++ rest) =
            runLines pb (⟨s.patch, HunkAcc.openNewPatch f,
              ⟨id, ⟨(natStr pos).data ++ ',' :: (natStr kl.2.length).data⟩,
                kl.2, 0 + kl.2.length, s.la.pos_diff⟩⟩ : RState) rest := by
          rw [runLines_append, hbodyrun]
        obtain ⟨s', hrun, hpatch, hha', hclean'⟩ := runKeys pb hWF ks id
          ⟨s.patch, HunkAcc.openNewPatch f,
            ⟨id, ⟨(natStr pos).data ++ ',' :: (natStr kl.2.length).data⟩,
              kl.2, 0 + kl.2.length, s.la.pos_diff⟩⟩ rest
          (fun k hk => hmem k (List.mem_cons_of_mem _ hk)) hwg rfl
          (Or.inr ⟨pos, kl.2, parse_hunk_coord hpos, hlookup, is_edited_self kl.2⟩)
          (HunkAcc.openNewPatch_isEmpty f)
        refine ⟨s', ?_, by rw [hpatch], hha', hclean'⟩
        rw [runLines_cons_ok hstep1, runLines_cons_ok hstep2, happ]
        exact hrun
    · have hpe' : (prev_id != id) = false := by
        simpa using hpe
      have hpeq : prev_id = id := by
        simpa [bne] using hpe
      have hsid' : s.la.id = id := hsid.trans hpeq
      rw [writeGo_cons_same pb hpe' hlookup] at hw
      cases hwg : writeGo pb id ks with
      | none => rw [hwg] at hw; exact absurd hw (by simp)
      | some rest =>
        rw [hwg] at hw
        simp only [Option.map_some', Option.some.injEq] at hw
        subst hw
        have hstep2 : stepLine pb s (hunkLineStr pb.hunk_marker pos kl.2.length) =
            some (.ok ⟨s.patch, s.ha,
              ⟨s.la.id, ⟨(natStr pos).data ++ ',' :: (natStr kl.2.length).data⟩,
                [], 0, s.la.pos_diff⟩⟩) :=
          step_hunkline pb hclean hmrk
        have hie2 : ((⟨s.la.id, ⟨(natStr pos).data ++ ',' :: (natStr kl.2.length).data⟩,
            [], 0, s.la.pos_diff⟩ : LineAcc)).isEmpty = false := by
          simp only [LineAcc.isEmpty, Bool.or_eq_false_iff]
          refine ⟨beq_eq_false_iff_ne.mpr ?_, coordStr_ne_empty pos kl.2.length⟩
          rw [hsid']
          omega
        have hbodyrun : runLines pb
            (⟨s.patch, s.ha,
              ⟨s.la.id, ⟨(natStr pos).data ++ ',' :: (natStr kl.2.length).data⟩,
                [], 0, s.la.pos_diff⟩⟩ : RState) kl.2 =
            some (.ok ⟨s.patch, s.ha,
              ⟨s.la.id, ⟨(natStr pos).data ++ ',' :: (natStr kl.2.length).data⟩,
                kl.2, 0 + kl.2.length, s.la.pos_diff⟩⟩) :=
          runLines_body pb kl.2 _ (fun l hl => hbody l hl) hie2
        have happ : runLines pb
            (⟨s.patch, s.ha,
              ⟨s.la.id, ⟨(natStr pos).data ++ ',' :: (natStr kl.2.length).data⟩,
                [], 0, s.la.pos_diff⟩⟩ : RState) (kl.2 ++ rest) =
            runLines pb (⟨s.patch, s.ha,
              ⟨s.la.id, ⟨(natStr pos).data ++ ',' :: (natStr kl.2.length).data⟩,
                kl.2, 0 + kl.2.length, s.la.pos_diff⟩⟩ : RState) rest := by
          rw [runLines_append, hbodyrun]
        obtain ⟨s', hrun, hpatch, hha', hclean'⟩ := runKeys pb hWF ks id
          ⟨s.patch, s.ha,
            ⟨s.la.id, ⟨(natStr pos).data ++ ',' :: (natStr kl.2.length).data⟩,
              kl.2, 0 + kl.2.length, s.la.pos_diff⟩⟩ rest
          (fun k hk => hmem k (List.mem_cons_of_mem _ hk)) hwg hsid'
          (Or.inr ⟨pos, kl.2, parse_hunk_coord hpos, by
            rw [hsid']
            exact hlookup, is_edited_self kl.2⟩)
          hha
        refine ⟨s', ?_, by rw [hpatch], hha', hclean'⟩
        rw [runLines_cons_ok hstep2, happ]
        exact hrun


/-- C1 (amended): the unedited round trip yields an empty patch for every
builder satisfying `WFpb` — in particular the hunk-key/file-table shape that
`from_grep` always produces, body lines free of both markers (guaranteed by
successful construction), trim-stable filenames, and no rendered hunk line
captured by the header marker (true for the default `+++`/`@@` markers). -/
theorem C1_roundtrip_amended (pb : PatchBuilder) (out : List String)
    (hWF : WFpb pb) (hw : write_halfdiff pb = some out) :
    read_halfdiff pb out = some (.ok "") := by
  have hkeys : ∀ k ∈ sortByKey hunkKeyLex (pb.raw_hunks.map (·.1)),
      k ∈ pb.raw_hunks.map (·.1) :=
    fun k hk => (sortByKey_perm _ _).subset hk
  obtain ⟨s', hrun, hpatch, hha', hclean'⟩ :=
    runKeys pb hWF _ 0 initRState out hkeys hw rfl (Or.inl rfl) rfl
  simp only [read_halfdiff, hrun, dump_hunk_clean hclean']
  rw [HunkAcc.dumpPatch, if_pos hha', hpatch]
  rfl

/-- The successfully constructed builder of the C1 counterexample: the user
fixes the header marker to `@@` while the hunk marker stays `@@`. -/
def pbCE : PatchBuilder :=
  ⟨"@@", "@@", false, true, [("a.txt", 1)], [((1, 2), ["x"])]⟩

/-- C1 counterexample: a successfully constructed `PatchBuilder` (header
marker fixed to `@@`, default hunk marker `@@`, no body collision) whose own
rendered half-diff does not read back as an empty patch: the hunk line
`@@ 2,1` re-parses as a header line naming the unknown file `2,1`, so
`read_halfdiff` returns an `UnknownFile` error instead of `Ok("")`. -/
theorem C1_roundtrip_counterexample :
    from_grep (some "@@") none ["a.txt:2:x"] = .ok pbCE ∧
    write_halfdiff pbCE = some ["@@ a.txt", "@@ 2,1", "x"] ∧
    read_halfdiff pbCE ["@@ a.txt", "@@ 2,1", "x"] = some (.error "UnknownFile") ∧
    read_halfdiff pbCE ["@@ a.txt", "@@ 2,1", "x"] ≠ some (.ok "") :=
  ⟨by rfl, by rfl, by rfl, by decide⟩

/-- C1 witness: the amended round trip applied to the S1 builder. -/
theorem C1_roundtrip_witness :
    read_halfdiff pbS1 ["+++ a.txt", "@@ 2,1", "  fox", "@@ 5,1", "  dog"] =
      some (.ok "") :=
  C1_roundtrip_amended pbS1 ["+++ a.txt", "@@ 2,1", "  fox", "@@ 5,1", "  dog"]
    (by decide) (by rfl)

end Ge
